import Mathlib

/-!
Verification of the pfsdb commit-store layer: a shallow embedding of the
commit CRUD, ancestry engine, picker resolver, iterator and watch loop,
together with theorems settling the specified claims.

The database is modelled as lists of rows; SQL statements are translated
into pure list operations.  Errors wrapped with context messages in the
source are modelled by the underlying error value only, since the wrapping
preserves error identity for both lookup branches and status mapping.
-/

namespace Pfsdb

/-- Decidable equality of results, used by concrete witnesses. -/
instance instDecEqExcept {ε α : Type} [DecidableEq ε] [DecidableEq α] : DecidableEq (Except ε α)
  | .ok a, .ok b =>
    if h : a = b then .isTrue (by rw [h]) else .isFalse (fun hh => by cases hh; exact h rfl)
  | .ok _, .error _ => .isFalse (fun hh => by cases hh)
  | .error _, .ok _ => .isFalse (fun hh => by cases hh)
  | .error e, .error f =>
    if h : e = f then .isTrue (by rw [h]) else .isFalse (fun hh => by cases hh; exact h rfl)

/-- Status codes carried by typed errors; errors built with a bare error
constructor in the source carry no status and map to unknown. -/
inductive StatusCode where
  | notFound
  | alreadyExists
  | failedPrecondition
  | invalidArgument
  | internal
  | unknown
deriving DecidableEq

/-- Error taxonomy of the commit store.  Typed errors mirror the dedicated
error structs of the source; the remaining constructors model errors built
inline with a formatted message.  A joined error keeps both components, as
the error-matching helpers search both sides. -/
inductive Err where
  | commitNotFound (rowId : Nat) (commitId : String)
  | parentCommitNotFound (childRowId : Nat)
  | childCommitNotFound (parentRowId : Nat)
  | commitMissingInfo (field : String)
  | commitAlreadyExists (commitId : String)
  | repoNotFound
  | projectNotFound
  | branchNotFound
  | invalidOrigin (kind : Nat)
  | errBreak
  | watcherClosed
  | unknownEventType
  | nilPicker
  | invalidAncestorOffset (key : String) (requested : Nat) (traversable : Nat)
  | invalidRootOffset (key : String) (requested : Nat) (maxDepth : Nat)
  | branchRootNotFound (key : String)
  | filterEmpty
  | execErr
  | scanErr
  | fuelExhausted
  | joined (a b : Err)
deriving DecidableEq

/-- Matching a commit-not-found error, through joins, as the matching in
the source sees through joined and wrapped errors. -/
def asCommitNotFound : Err → Bool
  | .commitNotFound _ _ => true
  | .joined a b => asCommitNotFound a || asCommitNotFound b
  | _ => false

/-- Matching a repo-not-found error, through joins. -/
def asRepoNotFound : Err → Bool
  | .repoNotFound => true
  | .joined a b => asRepoNotFound a || asRepoNotFound b
  | _ => false

/-- Matching a project-not-found error, through joins. -/
def asProjectNotFound : Err → Bool
  | .projectNotFound => true
  | .joined a b => asProjectNotFound a || asProjectNotFound b
  | _ => false

/-- Status code of an error: typed errors answer their status method;
errors built inline with only a message have no status method and fall to
unknown. -/
def grpcStatus : Err → StatusCode
  | .commitNotFound _ _ => .notFound
  | .parentCommitNotFound _ => .notFound
  | .childCommitNotFound _ => .notFound
  | .commitMissingInfo _ => .failedPrecondition
  | .commitAlreadyExists _ => .alreadyExists
  | .repoNotFound => .notFound
  | .projectNotFound => .notFound
  | .branchNotFound => .notFound
  | _ => .unknown

/-- Source constant bounding recursive ancestry walks. -/
def MaxSearchDepth : Nat := 1000

/-- Repository handle inside a commit handle; the project is optional
because filters may leave it unset. -/
structure PfsRepo where
  name : String
  type : String
  project : Option String
deriving DecidableEq

/-- Commit handle: repository, commit-set id, and optional branch name. -/
structure PfsCommit where
  repo : Option PfsRepo
  id : String
  branch : Option String
deriving DecidableEq

/-- Details record of a commit: compacting time, validating time, size. -/
structure CommitDetails where
  compactingTime : Option Int
  validatingTime : Option Int
  sizeBytes : Int
deriving DecidableEq

/-- Commit input/output record, with optional fields mirroring nilable
pointers of the source. -/
structure CommitInfo where
  commit : Option PfsCommit
  origin : Option Nat
  details : Option CommitDetails
  parentCommit : Option PfsCommit
  childCommits : List PfsCommit
  started : Option Int
  finishing : Option Int
  finished : Option Int
  description : String
  error : String
  metadata : List (String × String)
  createdBy : String
deriving DecidableEq

/-- Canonical commit key: project, slash, repo name, dot, repo type, at
sign, commit-set id.  A missing repo would make the source fault before
producing a key; that path is modelled as the empty key and is unused. -/
def CommitKey (c : PfsCommit) : String :=
  match c.repo with
  | some r => (r.project.getD ("")) ++ "/" ++ r.name ++ "." ++ r.type ++ "@" ++ c.id
  | none => ""

/-- Key of an optional commit handle. -/
def commitKeyOpt : Option PfsCommit → String
  | some c => CommitKey c
  | none => ""

/-- Printed form of an origin kind, as stored in the origin column. -/
def originKindName (k : Nat) : String :=
  if k = 0 then "ORIGIN_KIND_UNKNOWN"
  else if k = 1 then "USER"
  else if k = 2 then "AUTO"
  else if k = 3 then "FSCK"
  else "INVALID"

/-- Origin kind parsed back from the stored column value; unrecognised
strings map to the zero kind as in the generated enum table. -/
def originKindOfName (s : String) : Nat :=
  if s = "ORIGIN_KIND_UNKNOWN" then 0
  else if s = "USER" then 1
  else if s = "AUTO" then 2
  else if s = "FSCK" then 3
  else 0

/-- Validation of a commit record: missing commit, repo or origin are
rejected; a missing details record is replaced by an empty one; the origin
kind must be one of the four enumerated kinds.  The invalid-origin
rejection builds a bare formatted error, not a typed one. -/
def validateCommitInfo (ci : CommitInfo) : Except Err CommitInfo :=
  match ci.commit with
  | none => .error (.commitMissingInfo ("Commit"))
  | some c =>
    match c.repo with
    | none => .error (.commitMissingInfo ("Repo"))
    | some _ =>
      match ci.origin with
      | none => .error (.commitMissingInfo ("Origin"))
      | some kind =>
        let ci' := match ci.details with
          | none => { ci with details := some ⟨none, none, 0⟩ }
          | some _ => ci
        if kind = 0 ∨ kind = 1 ∨ kind = 2 ∨ kind = 3 then .ok ci'
        else .error (.invalidOrigin kind)

/-- Row of the commits table, joined columns excluded. -/
structure CommitRow where
  id : Nat
  key : String
  commitSetId : String
  repoId : Nat
  branchId : Option Nat
  origin : String
  description : String
  startTime : Option Int
  finishingTime : Option Int
  finishedTime : Option Int
  compactingTime : Option Int
  validatingTime : Option Int
  size : Int
  error : String
  metadata : List (String × String)
  createdBy : Option String
  createdAt : Int
  updatedAt : Int
deriving DecidableEq

/-- Row of the repos table, with the project denoted by name. -/
structure RepoRow where
  id : Nat
  name : String
  type : String
  project : String
deriving DecidableEq

/-- Row of the branches table; the head commit handle stands in for the
branch head association used by the pickers. -/
structure BranchRow where
  id : Nat
  name : String
  repoId : Nat
  head : PfsCommit
deriving DecidableEq

/-- Database state: commit rows, the ancestry relation as parent-child
pairs, the referenced repo, project and branch tables, and the direct
provenance relation. -/
structure DB where
  commits : List CommitRow
  ancestry : List (Nat × Nat)
  repos : List RepoRow
  projects : List String
  branches : List BranchRow
  prov : List (Nat × Nat)
deriving DecidableEq

/-- Ancestry options allowing creation to skip linking. -/
structure AncestryOpt where
  skipChildren : Bool
  skipParent : Bool
deriving DecidableEq

/-- The inner joins of the commit query: the repo row of a commit row,
provided its project also resolves. -/
def joinedRepo (db : DB) (r : CommitRow) : Option RepoRow :=
  match db.repos.find? (fun rp => rp.id = r.repoId) with
  | some rp => if db.projects.contains rp.project then some rp else none
  | none => none

/-- First commit row satisfying a predicate that also satisfies the repo
and project joins, paired with its repo row. -/
def lookupJoined (db : DB) (p : CommitRow → Bool) : Option (CommitRow × RepoRow) :=
  (db.commits.filterMap (fun r =>
    match joinedRepo db r with
    | some rp => if p r then some (r, rp) else none
    | none => none)).head?

/-- All joined commit rows satisfying a predicate, in table order. -/
def listJoined (db : DB) (p : CommitRow → Bool) : List (CommitRow × RepoRow) :=
  db.commits.filterMap (fun r =>
    match joinedRepo db r with
    | some rp => if p r then some (r, rp) else none
    | none => none)

/-- Branch name of a row through the left join on the branches table. -/
def rowBranchName (db : DB) (r : CommitRow) : Option String :=
  match r.branchId with
  | some bid => (db.branches.find? (fun b => b.id = bid)).map (fun b => b.name)
  | none => none

/-- Repo lookup by project, name and type.  Modelled from the spec: the
repo and project tables are external collaborators, referenced by the
probe of the create path; a missing project yields project-not-found and a
missing repo yields repo-not-found. -/
def GetRepoByName (db : DB) (project name type : String) : Except Err RepoRow :=
  if db.projects.contains project then
    match db.repos.find? (fun rp => rp.project = project ∧ rp.name = name ∧ rp.type = type) with
    | some rp => .ok rp
    | none => .error .repoNotFound
  else .error .projectNotFound

/-- Commit-row lookup by key: scan by commit id; on no row, probe the repo
so that a missing repo surfaces joined with commit-not-found, a repo probe
failure propagates, and otherwise the commit alone is not found. -/
def getCommitRowByCommitKey (db : DB) (c : Option PfsCommit) : Except Err CommitRow :=
  match c with
  | none => .error (.commitMissingInfo ("Commit"))
  | some c =>
    let id := CommitKey c
    match lookupJoined db (fun r => r.key = id) with
    | some (r, _) => .ok r
    | none =>
      match c.repo with
      | none => .error (.commitMissingInfo ("Repo"))
      | some rp =>
        match GetRepoByName db (rp.project.getD ("")) rp.name rp.type with
        | .error .repoNotFound => .error (.joined .repoNotFound (.commitNotFound 0 id))
        | .error e => .error e
        | .ok _ => .error (.commitNotFound 0 id)

/-- Internal id of a commit resolved by key. -/
def GetCommitID (db : DB) (c : Option PfsCommit) : Except Err Nat :=
  match c with
  | none => .error (.commitMissingInfo ("Commit"))
  | some c' =>
    match c'.repo with
    | none => .error (.commitMissingInfo ("Repo"))
    | some _ =>
      match getCommitRowByCommitKey db (some c') with
      | .ok r => .ok r.id
      | .error e => .error e

/-- Commit handle reconstructed from a joined row, as the row-to-proto
conversion does. -/
def rowPb (db : DB) (r : CommitRow) (rp : RepoRow) : PfsCommit :=
  ⟨some ⟨rp.name, rp.type, some rp.project⟩, r.commitSetId, rowBranchName db r⟩

/-- Commit record parsed from a joined row, relatives not yet attached. -/
def parseCommitInfoFromRow (db : DB) (r : CommitRow) (rp : RepoRow) : CommitInfo :=
  { commit := some (rowPb db r rp)
  , origin := some (originKindOfName r.origin)
  , details := some ⟨r.compactingTime, r.validatingTime, r.size⟩
  , parentCommit := none
  , childCommits := []
  , started := r.startTime
  , finishing := r.finishingTime
  , finished := r.finishedTime
  , description := r.description
  , error := r.error
  , metadata := r.metadata
  , createdBy := r.createdBy.getD ("")
  }

/-- Parent row of a commit: first joined row that is a parent of the given
id in the ancestry relation; no row is a typed parent-not-found error. -/
def getCommitParentRow (db : DB) (childCommit : Nat) : Except Err (CommitRow × RepoRow) :=
  match lookupJoined db (fun r => (r.id, childCommit) ∈ db.ancestry) with
  | some pr => .ok pr
  | none => .error (.parentCommitNotFound childCommit)

/-- Children rows of a commit: all joined rows that are children of the
given id; an empty result is a typed child-not-found error. -/
def getCommitChildrenRows (db : DB) (parentCommit : Nat) : Except Err (List (CommitRow × RepoRow)) :=
  match listJoined db (fun r => (parentCommit, r.id) ∈ db.ancestry) with
  | [] => .error (.childCommitNotFound parentCommit)
  | l => .ok l

/-- Relative rows of a commit with the two not-found errors recovered:
a missing parent means the commit is a root, missing children mean it is a
head. -/
def getCommitRelativeRows (db : DB) (commitID : Nat) :
    Option (CommitRow × RepoRow) × Option (List (CommitRow × RepoRow)) :=
  let parent := match getCommitParentRow db commitID with
    | .ok pr => some pr
    | .error _ => none
  let children := match getCommitChildrenRows db commitID with
    | .ok l => some l
    | .error _ => none
  (parent, children)

/-- Direct provenance rows of a commit.  Modelled from the spec: the
provenance engine is an external collaborator; at depth one it returns the
commits the given commit directly depends on. -/
def getProvenantRows (db : DB) (id : Nat) : List (CommitRow × RepoRow) :=
  listJoined db (fun r => (id, r.id) ∈ db.prov)

/-- Direct subvenance rows of a commit.  Modelled from the spec: inverse
of direct provenance at depth one. -/
def getSubvenantRows (db : DB) (id : Nat) : List (CommitRow × RepoRow) :=
  listJoined db (fun r => (r.id, id) ∈ db.prov)

/-- Related ids assembled next to a commit record. -/
structure RelatedIDs where
  parentID : Nat
  childrenIDs : List Nat
  directProvenantIDs : List Nat
  directSubvenantIDs : List Nat
deriving DecidableEq

/-- Full commit record assembled from a joined row: relatives with the
missing-relative errors recovered, and depth-one provenance and
subvenance. -/
def getCommitFromCommitRow (db : DB) (r : CommitRow) (rp : RepoRow) : CommitInfo × RelatedIDs :=
  let base := parseCommitInfoFromRow db r rp
  let (parent, children) := getCommitRelativeRows db r.id
  let childRows := children.getD []
  let provRows := getProvenantRows db r.id
  let subRows := getSubvenantRows db r.id
  ( { base with
      parentCommit := parent.map (fun pr => rowPb db pr.1 pr.2)
    , childCommits := childRows.map (fun cr => rowPb db cr.1 cr.2) }
  , ⟨(parent.map (fun pr => pr.1.id)).getD 0
    , childRows.map (fun cr => cr.1.id)
    , provRows.map (fun pr => pr.1.id)
    , subRows.map (fun sr => sr.1.id)⟩ )

/-- Picked or fetched commit: internal id, record, related ids and the
iterator revision. -/
structure Commit where
  id : Nat
  info : CommitInfo
  related : RelatedIDs
  revision : Int
deriving DecidableEq

/-- Commit fetched by key: row lookup then assembly. -/
def GetCommitByKey (db : DB) (c : Option PfsCommit) : Except Err Commit :=
  match getCommitRowByCommitKey db c with
  | .error e => .error e
  | .ok r =>
    match joinedRepo db r with
    | some rp =>
      let (info, rel) := getCommitFromCommitRow db r rp
      .ok ⟨r.id, info, rel, 0⟩
    | none => .error .scanErr

/-- Joined commit row fetched by internal id; the zero id is rejected. -/
def getCommitRow (db : DB) (id : Nat) : Except Err (CommitRow × RepoRow) :=
  if id = 0 then .error .scanErr
  else
    match lookupJoined db (fun r => r.id = id) with
    | some pr => .ok pr
    | none => .error (.commitNotFound id (""))

/-- Commit record fetched by internal id. -/
def GetCommitInfo (db : DB) (id : Nat) : Except Err CommitInfo :=
  match getCommitRow db id with
  | .error e => .error e
  | .ok (r, rp) => .ok (getCommitFromCommitRow db r rp).1

/-- A single ancestry insert with conflict-do-nothing semantics: the child
column is unique in the relation, so any existing edge with the same child
makes the insert a no-op.  Foreign keys are not modelled; no claim depends
on them. -/
def insertAncestryEdge (anc : List (Nat × Nat)) (e : Nat × Nat) : List (Nat × Nat) :=
  if anc.any (fun e' => e'.2 = e.2) then anc else anc ++ [e]

/-- Single parent link where the parent is resolved by key through a
sub-select on the commits table; a missing parent key surfaces as the
not-null violation mapped to parent-not-found. -/
def CreateCommitParent (db : DB) (parentCommit : PfsCommit) (childCommit : Nat) : Except Err DB :=
  match db.commits.find? (fun r => r.key = CommitKey parentCommit) with
  | none => .error (.parentCommitNotFound childCommit)
  | some pr => .ok { db with ancestry := insertAncestryEdge db.ancestry (pr.id, childCommit) }

/-- Batch child links with both endpoints given by id, inserted by one
statement; an empty batch renders a malformed statement and fails. -/
def CreateCommitAncestries (db : DB) (parentCommit : Nat) (childrenCommits : List Nat) : Except Err DB :=
  if childrenCommits.isEmpty then .error .execErr
  else
    let anc := childrenCommits.foldl (fun anc c => insertAncestryEdge anc (parentCommit, c)) db.ancestry
    .ok { db with ancestry := anc }

/-- Batch child links where each child is resolved by key through a
sub-select; any missing child key fails the whole statement with the
not-null violation mapped to child-not-found. -/
def CreateCommitChildren (db : DB) (parentCommit : Nat) (childCommits : List PfsCommit) : Except Err DB :=
  if childCommits.isEmpty then .error .execErr
  else
    match childCommits.mapM (fun c => db.commits.find? (fun r => r.key = CommitKey c)) with
    | none => .error (.childCommitNotFound parentCommit)
    | some rows =>
      let anc := rows.foldl (fun anc cr => insertAncestryEdge anc (parentCommit, cr.id)) db.ancestry
      .ok { db with ancestry := anc }

/-- Fresh internal id for an insert, modelling the serial column. -/
def nextCommitId (db : DB) : Nat :=
  (db.commits.map (fun r => r.id)).foldl max 0 + 1

/-- Insert phase of commit creation, entered once the probe reported the
commit not found: resolve the repo and branch sub-selects, insert the row,
then link the parent and children unless skipped. -/
def createCommitInsert (db : DB) (ci : CommitInfo) (opt : AncestryOpt) : Except Err (Nat × DB) :=
  match ci.commit with
  | none => .error (.commitMissingInfo ("Commit"))
  | some c =>
    match c.repo with
    | none => .error (.commitMissingInfo ("Repo"))
    | some rp =>
      match db.repos.find? (fun r => r.project = rp.project.getD ("") ∧ r.name = rp.name ∧ r.type = rp.type) with
      | none => .error .scanErr
      | some repoRow =>
        let branchId := match c.branch with
          | none => none
          | some bn => (db.branches.find? (fun b => b.name = bn ∧ b.repoId = repoRow.id)).map (fun b => b.id)
        let details := ci.details.getD ⟨none, none, 0⟩
        let newId := nextCommitId db
        let row : CommitRow :=
          { id := newId
          , key := CommitKey c
          , commitSetId := c.id
          , repoId := repoRow.id
          , branchId := branchId
          , origin := originKindName (ci.origin.getD 0)
          , description := ci.description
          , startTime := ci.started
          , finishingTime := ci.finishing
          , finishedTime := ci.finished
          , compactingTime := details.compactingTime
          , validatingTime := details.validatingTime
          , size := details.sizeBytes
          , error := ci.error
          , metadata := ci.metadata
          , createdBy := if ci.createdBy = "" then none else some ci.createdBy
          , createdAt := 0
          , updatedAt := 0 }
        let db1 := { db with commits := db.commits ++ [row] }
        let step2 : Except Err DB :=
          match ci.parentCommit with
          | some pc => if opt.skipParent then .ok db1 else CreateCommitParent db1 pc newId
          | none => .ok db1
        match step2 with
        | .error e => .error e
        | .ok db2 =>
          if ci.childCommits.isEmpty ∨ opt.skipChildren then .ok (newId, db2)
          else
            match CreateCommitChildren db2 newId ci.childCommits with
            | .error e => .error e
            | .ok db3 => .ok (newId, db3)

/-- Commit creation: validate, probe by key, branch on the probe result,
and only on a bare commit-not-found proceed to the insert phase. -/
def CreateCommit (db : DB) (ci : CommitInfo) (opts : List AncestryOpt) : Except Err (Nat × DB) :=
  match validateCommitInfo ci with
  | .error e => .error e
  | .ok ci' =>
    match GetCommitByKey db ci'.commit with
    | .ok cm => .error (.commitAlreadyExists (commitKeyOpt cm.info.commit))
    | .error e =>
      if asProjectNotFound e ∨ asRepoNotFound e then .error e
      else if ¬ asCommitNotFound e then .error e
      else createCommitInsert db ci' (opts.headD ⟨false, false⟩)

/-- Commit deletion: resolve the id by key, fetch relatives, drop every
edge touching the commit when any exists, re-link the parent to all
children when both sides exist, then delete the row. -/
def DeleteCommit (db : DB) (c : Option PfsCommit) : Except Err DB :=
  match c with
  | none => .error (.commitMissingInfo ("Commit"))
  | some c' =>
    match GetCommitID db (some c') with
    | .error e => .error e
    | .ok id =>
      let rel := getCommitRelativeRows db id
      let parent := rel.1
      let children := rel.2
      let anc1 := if parent.isSome ∨ children.isSome then
          db.ancestry.filter (fun e => ¬ (e.1 = id ∨ e.2 = id))
        else db.ancestry
      let db1 := { db with ancestry := anc1 }
      let step : Except Err DB :=
        match parent, children with
        | some p, some cs => CreateCommitAncestries db1 p.1.id (cs.map (fun cr => cr.1.id))
        | _, _ => .ok db1
      match step with
      | .error e => .error e
      | .ok db2 =>
        let remaining := db2.commits.filter (fun r => r.id ≠ id)
        if remaining.length = db2.commits.length then .error (.commitNotFound id (""))
        else .ok { db2 with commits := remaining }

/-- The shared targeted-update helper: run the update on the row matched
by internal id and fail with not-found when no row was affected. -/
def update (db : DB) (id : Nat) (f : CommitRow → CommitRow) : Except Err DB :=
  if db.commits.any (fun r => r.id = id) then
    .ok { db with commits := db.commits.map (fun r => if r.id = id then f r else r) }
  else .error (.commitNotFound id (""))

/-- Metadata update: a single statement setting only the metadata column
of the row matched by internal id. -/
def UpdateCommitMetadata (db : DB) (commitID : Nat) (metadata : List (String × String)) : Except Err DB :=
  update db commitID (fun r => { r with metadata := metadata })

/-- Row of the recursive ancestry query: parent, child and depth. -/
structure ARow where
  parent : Nat
  child : Nat
  depth : Nat
deriving DecidableEq

/-- One round of the recursive term: rows one step above the working rows,
if their depth has not reached the bound. -/
def newRows (edges : List (Nat × Nat)) (maxDepth : Nat) (work : List ARow) : List ARow :=
  work.flatMap (fun r =>
    if r.depth < maxDepth then
      (edges.filter (fun e => e.2 = r.parent)).map (fun e => ⟨e.1, e.2, r.depth + 1⟩)
    else [])

/-- Deduplication of the recursive union: keep each row once, and drop
rows already accumulated. -/
def dedupAgainst (seen : List ARow) (xs : List ARow) : List ARow :=
  xs.foldl (fun acc x => if x ∈ seen ∨ x ∈ acc then acc else acc ++ [x]) []

/-- Iteration of the recursive query.  The fuel only makes the recursion
structural: every working row of round n has depth n plus one, and the
depth guard empties the working table after at most maxDepth rounds, so
fuel maxDepth computes the query fixpoint. -/
def cteLoop (edges : List (Nat × Nat)) (maxDepth : Nat) : Nat → List ARow → List ARow → List ARow
  | 0, seen, _ => seen
  | fuel + 1, seen, work =>
    let nw := dedupAgainst seen (newRows edges maxDepth work)
    if nw.isEmpty then seen else cteLoop edges maxDepth fuel (seen ++ nw) nw

/-- Result rows of the recursive ancestry query from a start commit. -/
def commitAncestryRows (edges : List (Nat × Nat)) (start maxDepth : Nat) : List ARow :=
  let base := dedupAgainst [] ((edges.filter (fun e => e.2 = start)).map (fun e => ⟨e.1, e.2, 1⟩))
  cteLoop edges maxDepth maxDepth base base

/-- Depth bound actually used: zero or anything above the cap becomes the
cap. -/
def effectiveDepth (maxDepth : Nat) : Nat :=
  if maxDepth = 0 ∨ maxDepth > MaxSearchDepth then MaxSearchDepth else maxDepth

/-- Callback shape of the walks: old state to new state plus an optional
error, the state standing in for the closure captures of the source. -/
abbrev CB (σ : Type) := σ → Nat → Nat → σ × Option Err

/-- Run a callback over query rows, stopping at the first error. -/
def foldRows {σ : Type} (cb : CB σ) : σ → List ARow → σ × Option Err
  | s, [] => (s, none)
  | s, r :: rest =>
    match cb s r.parent r.child with
    | (s', some e) => (s', some e)
    | (s', none) => foldRows cb s' rest

/-- Ancestor walk: clamp the depth, run the recursive query, feed each row
to the callback. -/
def ForEachCommitAncestor {σ : Type} (db : DB) (startId maxDepth : Nat) (cb : CB σ) (s : σ) : σ × Option Err :=
  foldRows cb s (commitAncestryRows db.ancestry startId (effectiveDepth maxDepth))

/-- Wrapper callback of the batched walk: record every parent seen as the
earliest ancestor, then invoke the user callback. -/
def untilInner {σ : Type} (cb : CB σ) : CB (Nat × σ) :=
  fun es p c =>
    let r := cb es.2 p c
    ((p, r.1), r.2)

/-- Batched walk to the root: run full-depth batches, restarting from the
earliest ancestor of each batch, until a batch makes no progress; a break
from the callback ends the walk without error.  The fuel models the
unbounded loop of the source; exhaustion is a distinguished marker. -/
def untilRootLoop {σ : Type} (edges : List (Nat × Nat)) (cb : CB σ) : Nat → Nat → σ → σ × Option Err
  | 0, _, s => (s, some .fuelExhausted)
  | fuel + 1, ptr, s =>
    match foldRows (untilInner cb) (ptr, s) (commitAncestryRows edges ptr MaxSearchDepth) with
    | ((_, s'), some e) => if e = .errBreak then (s', none) else (s', some e)
    | ((earliest, s'), none) =>
      if earliest = ptr then (s', none) else untilRootLoop edges cb fuel earliest s'

/-- Walk to the root over the database ancestry. -/
def forEachCommitAncestorUntilRoot {σ : Type} (db : DB) (fuel startId : Nat) (cb : CB σ) (s : σ) : σ × Option Err :=
  untilRootLoop db.ancestry cb fuel startId s

/-- Commit picker variants.  Repo and branch pickers are modelled from the
spec as internal ids resolved against the repo and branch tables. -/
inductive CommitPicker where
  | globalId (repo : Nat) (id : String)
  | branchHead (branch : Nat)
  | ancestorOf (start : CommitPicker) (offset : Nat)
  | branchRoot (branch : Nat) (offset : Nat)
deriving DecidableEq

/-- Repo resolution for pickers.  Modelled from the spec: repo pickers are
resolved by an external collaborator. -/
def PickRepo (db : DB) (rp : Nat) : Except Err RepoRow :=
  match db.repos.find? (fun r => r.id = rp) with
  | some r => .ok r
  | none => .error .repoNotFound

/-- Branch resolution for pickers.  Modelled from the spec: branch pickers
are resolved by an external collaborator and carry their head commit. -/
def PickBranch (db : DB) (bp : Nat) : Except Err BranchRow :=
  match db.branches.find? (fun b => b.id = bp) with
  | some b => .ok b
  | none => .error .branchNotFound

/-- Global-id picker: resolve the repo, then fetch by key. -/
def pickCommitGlobalID (db : DB) (rp : Nat) (cid : String) : Except Err Commit :=
  match PickRepo db rp with
  | .error e => .error e
  | .ok r => GetCommitByKey db (some ⟨some ⟨r.name, r.type, some r.project⟩, cid, none⟩)

/-- Branch-head picker: resolve the branch, then fetch its head by key. -/
def pickCommitBranchHead (db : DB) (bp : Nat) : Except Err Commit :=
  match PickBranch db bp with
  | .error e => .error e
  | .ok b => GetCommitByKey db (some b.head)

/-- Picker resolution.  The ancestor variant resolves its start, returns
it unchanged at offset zero, otherwise counts parents along the walk and
breaks at the requested offset; falling short is an invalid offset.  The
branch-root variant walks from the head keeping a sliding window of the
last offset-plus-one commits visited and returns the front of the window;
a depth smaller than the offset is an invalid offset, an empty window is a
root-not-found error. -/
def pickCommitAux (db : DB) (fuel : Nat) : CommitPicker → Except Err Commit
  | .globalId rp cid => pickCommitGlobalID db rp cid
  | .branchHead bp => pickCommitBranchHead db bp
  | .ancestorOf start off =>
    match pickCommitAux db fuel start with
    | .error e => .error e
    | .ok sc =>
      if off = 0 then .ok sc
      else
        let walk := untilRootLoop db.ancestry
          (fun (st : Nat × Nat) p _ =>
            if st.1 = off then (st, some .errBreak) else ((st.1 + 1, p), none))
          fuel sc.id (0, sc.id)
        match walk with
        | (_, some e) => .error e
        | ((offF, ptr), none) =>
          if offF ≠ off then .error (.invalidAncestorOffset (commitKeyOpt sc.info.commit) off offF)
          else
            match GetCommitInfo db ptr with
            | .error e => .error e
            | .ok info => .ok ⟨ptr, info, ⟨0, [], [], []⟩, 0⟩
  | .branchRoot bp off =>
    match pickCommitBranchHead db bp with
    | .error e => .error e
    | .ok hc =>
      let walk := untilRootLoop db.ancestry
        (fun (st : List Nat × Nat) p _ =>
          let path := st.1 ++ [p]
          let path := if path.length > off + 1 then path.tail else path
          ((path, st.2 + 1), none))
        fuel hc.id ([hc.id], 1)
      match walk with
      | (_, some e) => .error e
      | ((path, depth), none) =>
        if depth < off then .error (.invalidRootOffset (commitKeyOpt hc.info.commit) off depth)
        else
          match path with
          | [] => .error (.branchRootNotFound (commitKeyOpt hc.info.commit))
          | x :: _ =>
            match GetCommitInfo db x with
            | .error e => .error e
            | .ok info => .ok ⟨x, info, ⟨0, [], [], []⟩, 0⟩

/-- Entry point of picker resolution; a missing picker is rejected. -/
def PickCommit (db : DB) (fuel : Nat) : Option CommitPicker → Except Err Commit
  | none => .error .nilPicker
  | some pk => pickCommitAux db fuel pk

/-- Filter conditions that the iterator conjoins onto the scan. -/
inductive CommitCond where
  | repoName (s : String)
  | repoType (s : String)
  | projectName (s : String)
  | setId (s : String)
  | branchName (s : String)
deriving DecidableEq

/-- Conditions derived from an optional filter: each of the five fields
contributes one condition when set and non-empty; a missing filter
contributes none. -/
def commitFilterConds : Option PfsCommit → List CommitCond
  | none => []
  | some f =>
    (match f.repo with
      | some r => if r.name ≠ "" then [.repoName r.name] else []
      | none => []) ++
    (match f.repo with
      | some r => if r.type ≠ "" then [.repoType r.type] else []
      | none => []) ++
    (match f.repo with
      | some r =>
        match r.project with
        | some pn => if pn ≠ "" then [.projectName pn] else []
        | none => []
      | none => []) ++
    (if f.id ≠ "" then [.setId f.id] else []) ++
    (match f.branch with
      | some bn => if bn ≠ "" then [.branchName bn] else []
      | none => [])

/-- Whether a joined row satisfies one condition; the branch condition
compares through the left join, so a row without a branch matches no
branch-name condition. -/
def condHolds (db : DB) (r : CommitRow) (rp : RepoRow) : CommitCond → Bool
  | .repoName s => rp.name = s
  | .repoType s => rp.type = s
  | .projectName s => rp.project = s
  | .setId s => r.commitSetId = s
  | .branchName s => rowBranchName db r = some s

/-- Scan rows of the iterator: joined rows satisfying every condition, in
the default ascending internal-id order. -/
def commitsScanRows (db : DB) (filter : Option PfsCommit) : List (CommitRow × RepoRow) :=
  ((listJoined db (fun _ => true)).filter
    (fun pr => (commitFilterConds filter).all (condHolds db pr.1 pr.2))).mergeSort
    (fun a b => a.1.id ≤ b.1.id)

/-- Commit yielded by the iterator at a scan position. -/
def commitOfScanRow (db : DB) (rev : Int) (pr : CommitRow × RepoRow) : Commit :=
  let (info, rel) := getCommitFromCommitRow db pr.1 pr.2
  ⟨pr.1.id, info, rel, rev⟩

/-- Sequence of commits yielded by the iterator.  The page mechanics are
modelled from the spec: offset-limit pages over the stable ordering
compose to the full ordered scan, and the revision is the scan
position. -/
def NewCommitsIterator (db : DB) (filter : Option PfsCommit) : List Commit :=
  (commitsScanRows db filter).enum.map (fun p => commitOfScanRow db (Int.ofNat p.1) p.2)

/-- Callback shape over yielded commits. -/
abbrev CommitCB (σ : Type) := σ → Commit → σ × Option Err

/-- Run a callback over yielded commits, stopping at the first error. -/
def foldCommits {σ : Type} (cb : CommitCB σ) : σ → List Commit → σ × Option Err
  | s, [] => (s, none)
  | s, c :: rest =>
    match cb s c with
    | (s', some e) => (s', some e)
    | (s', none) => foldCommits cb s' rest

/-- Open iteration: accepts any filter, including a missing one. -/
def ForEachCommit {σ : Type} (db : DB) (filter : Option PfsCommit) (cb : CommitCB σ) (s : σ) : σ × Option Err :=
  foldCommits cb s (NewCommitsIterator db filter)

/-- Transactional iteration by filter: a missing filter is rejected
before any scan. -/
def ForEachCommitTxByFilter {σ : Type} (db : DB) (filter : Option PfsCommit) (cb : CommitCB σ) (s : σ) : σ × Option Err :=
  match filter with
  | none => (s, some .filterEmpty)
  | some f => foldCommits cb s (NewCommitsIterator db (some f))

/-- Event kinds delivered by the notification channel. -/
inductive EventType where
  | insert
  | update
  | delete
  | other (n : Nat)
deriving DecidableEq

/-- Decoded notification event: kind, row id, and an optional decode
error. -/
structure PgEvent where
  typ : EventType
  id : Nat
  err : Option Err
deriving DecidableEq

/-- Callback shape for deletions. -/
abbrev DeleteCB (σ : Type) := σ → Nat → σ × Option Err

/-- Delta loop of the watcher over the delivered events; the end of the
list models the channel closing.  A delete event invokes the delete
handler; an insert or update event fetches the commit afresh and invokes
the upsert handler, any lookup error aborting the watcher; any other kind
aborts with the unknown-event error; exhaustion of the channel aborts
with the watcher-closed error. -/
def processEvents {σ : Type} (db : DB) (onUpsert : CommitCB σ) (onDelete : DeleteCB σ) : σ → List PgEvent → σ × Option Err
  | s, [] => (s, some .watcherClosed)
  | s, e :: rest =>
    match e.err with
    | some er => (s, some er)
    | none =>
      match e.typ with
      | .delete =>
        match onDelete s e.id with
        | (s', some er) => (s', some er)
        | (s', none) => processEvents db onUpsert onDelete s' rest
      | .insert =>
        match GetCommitInfo db e.id with
        | .error er => (s, some er)
        | .ok info =>
          match onUpsert s ⟨e.id, info, ⟨0, [], [], []⟩, 0⟩ with
          | (s', some er) => (s', some er)
          | (s', none) => processEvents db onUpsert onDelete s' rest
      | .update =>
        match GetCommitInfo db e.id with
        | .error er => (s, some er)
        | .ok info =>
          match onUpsert s ⟨e.id, info, ⟨0, [], [], []⟩, 0⟩ with
          | (s', some er) => (s', some er)
          | (s', none) => processEvents db onUpsert onDelete s' rest
      | .other _ => (s, some .unknownEventType)

/-- Watcher body: drain the snapshot through the upsert handler, then run
the delta loop. -/
def watchCommits {σ : Type} (db : DB) (snapshot : List Commit) (events : List PgEvent)
    (onUpsert : CommitCB σ) (onDelete : DeleteCB σ) (s : σ) : σ × Option Err :=
  match foldCommits onUpsert s snapshot with
  | (s', some er) => (s', some er)
  | (s', none) => processEvents db onUpsert onDelete s' events

/-- All-commits watcher: snapshot is the unfiltered scan in ascending
internal-id order, then the delta loop. -/
def WatchCommits {σ : Type} (db : DB) (events : List PgEvent)
    (onUpsert : CommitCB σ) (onDelete : DeleteCB σ) (s : σ) : σ × Option Err :=
  watchCommits db (NewCommitsIterator db none) events onUpsert onDelete s

/-! Theorems settling the claims. -/

/-- Concrete commit record whose origin kind is outside the enumerated
set. -/
def badOriginInfo : CommitInfo :=
  { commit := some ⟨some ⟨"images", "user", some ("default")⟩, "c1", none⟩
  , origin := some 7
  , details := some ⟨none, none, 0⟩
  , parentCommit := none
  , childCommits := []
  , started := none
  , finishing := none
  , finished := none
  , description := ""
  , error := ""
  , metadata := []
  , createdBy := "" }

/-- C5 counterexample: on a commit whose origin kind is 7, validation
rejects with a bare formatted error whose status is not failed
precondition, so the invalid-origin rejection does not carry the status
the claim asserts. -/
theorem validateCommitInfo_invalidOrigin_status_counterexample :
    validateCommitInfo badOriginInfo = .error (.invalidOrigin 7) ∧
    grpcStatus (.invalidOrigin 7) ≠ .failedPrecondition := by
  constructor
  · rfl
  · decide

/-- C5 (amended): validation rejects with a missing-field error carrying
failed-precondition status when the commit handle, repo or origin is
missing; substitutes an empty details record when details are missing
instead of failing; and rejects origin kinds outside the enumerated set
with a bare error carrying no status (unknown), not failed
precondition. -/
theorem validateCommitInfo_spec (ci : CommitInfo) (c : PfsCommit) (rp : PfsRepo) (k : Nat) :
    (ci.commit = none → validateCommitInfo ci = .error (.commitMissingInfo ("Commit"))) ∧
    (ci.commit = some c → c.repo = none → validateCommitInfo ci = .error (.commitMissingInfo ("Repo"))) ∧
    (ci.commit = some c → c.repo = some rp → ci.origin = none →
      validateCommitInfo ci = .error (.commitMissingInfo ("Origin"))) ∧
    (ci.commit = some c → c.repo = some rp → ∀ k', ci.origin = some k' →
      (k' = 0 ∨ k' = 1 ∨ k' = 2 ∨ k' = 3) → ci.details = none →
      validateCommitInfo ci = .ok { ci with details := some ⟨none, none, 0⟩ }) ∧
    (ci.commit = some c → c.repo = some rp → ∀ k' d, ci.origin = some k' →
      (k' = 0 ∨ k' = 1 ∨ k' = 2 ∨ k' = 3) → ci.details = some d →
      validateCommitInfo ci = .ok ci) ∧
    (ci.commit = some c → c.repo = some rp → ∀ k', ci.origin = some k' →
      ¬ (k' = 0 ∨ k' = 1 ∨ k' = 2 ∨ k' = 3) →
      validateCommitInfo ci = .error (.invalidOrigin k')) ∧
    (∀ f, grpcStatus (.commitMissingInfo f) = .failedPrecondition) ∧
    grpcStatus (.invalidOrigin k) = .unknown := by
  refine ⟨?_, ?_, ?_, ?_, ?_, ?_, fun f => rfl, rfl⟩
  · intro h
    simp only [validateCommitInfo, h]
  · intro h1 h2
    simp only [validateCommitInfo, h1, h2]
  · intro h1 h2 h3
    simp only [validateCommitInfo, h1, h2, h3]
  · intro h1 h2 k' h3 hk hd
    simp only [validateCommitInfo, h1, h2, h3, hd, if_pos hk]
  · intro h1 h2 k' d h3 hk hd
    simp only [validateCommitInfo, h1, h2, h3, hd, if_pos hk]
  · intro h1 h2 k' h3 hk
    simp only [validateCommitInfo, h1, h2, h3, if_neg hk]

/-- C5 witness: the amended theorem applied to a commit with a missing
origin and to one with origin kind 7. -/
theorem validateCommitInfo_spec_witness :
    validateCommitInfo { badOriginInfo with origin := none } =
      .error (.commitMissingInfo ("Origin")) ∧
    validateCommitInfo badOriginInfo = .error (.invalidOrigin 7) := by
  have h := validateCommitInfo_spec { badOriginInfo with origin := none }
    ⟨some ⟨"images", "user", some ("default")⟩, "c1", none⟩ ⟨"images", "user", some ("default")⟩ 7
  have h2 := validateCommitInfo_spec badOriginInfo
    ⟨some ⟨"images", "user", some ("default")⟩, "c1", none⟩ ⟨"images", "user", some ("default")⟩ 7
  exact ⟨h.2.2.1 rfl rfl rfl, h2.2.2.2.2.2.1 rfl rfl 7 rfl (by decide)⟩

/-- C9: the metadata update fails with not-found when no row has the id,
and on success changes nothing except the metadata column of the matched
row: all other tables are untouched, the row count is unchanged, every
non-metadata field of every row is unchanged, rows with other ids are
completely unchanged, and the matched row gets the new metadata. -/
theorem UpdateCommitMetadata_frame (db : DB) (id : Nat) (m : List (String × String)) :
    ((∀ r ∈ db.commits, r.id ≠ id) →
      UpdateCommitMetadata db id m = .error (.commitNotFound id (""))) ∧
    (∀ db', UpdateCommitMetadata db id m = .ok db' →
      db'.ancestry = db.ancestry ∧ db'.repos = db.repos ∧ db'.projects = db.projects ∧
      db'.branches = db.branches ∧ db'.prov = db.prov ∧
      db'.commits.length = db.commits.length ∧
      ∀ i : Nat, ∀ r r' : CommitRow, db.commits[i]? = some r → db'.commits[i]? = some r' →
        r'.id = r.id ∧ r'.key = r.key ∧ r'.commitSetId = r.commitSetId ∧
        r'.repoId = r.repoId ∧ r'.branchId = r.branchId ∧ r'.origin = r.origin ∧
        r'.description = r.description ∧ r'.startTime = r.startTime ∧
        r'.finishingTime = r.finishingTime ∧ r'.finishedTime = r.finishedTime ∧
        r'.compactingTime = r.compactingTime ∧ r'.validatingTime = r.validatingTime ∧
        r'.size = r.size ∧ r'.error = r.error ∧ r'.createdBy = r.createdBy ∧
        r'.createdAt = r.createdAt ∧ r'.updatedAt = r.updatedAt ∧
        (r.id = id → r'.metadata = m) ∧ (r.id ≠ id → r' = r)) := by
  constructor
  · intro h
    unfold UpdateCommitMetadata update
    rw [if_neg]
    simp only [List.any_eq_true, decide_eq_true_eq, not_exists, not_and]
    exact fun r hr => h r hr
  · intro db' h
    unfold UpdateCommitMetadata update at h
    split at h
    · rw [Except.ok.injEq] at h
      subst h
      refine ⟨rfl, rfl, rfl, rfl, rfl, by simp, ?_⟩
      intro i r r' hr hr'
      simp only [List.getElem?_map, hr, Option.map_some', Option.some.injEq] at hr'
      subst hr'
      by_cases hid : r.id = id
      · simp [hid]
      · simp [hid]
    · cases h

/-- Concrete database for the not-found witness: one commit row with
internal id 1. -/
def dbW : DB :=
  { commits := [{ id := 1, key := "default/images.user@c1", commitSetId := "c1"
                , repoId := 1, branchId := none, origin := "USER", description := ""
                , startTime := none, finishingTime := none, finishedTime := none
                , compactingTime := none, validatingTime := none, size := 0
                , error := "", metadata := [], createdBy := none
                , createdAt := 0, updatedAt := 0 }]
  , ancestry := []
  , repos := [⟨1, "images", "user", "default"⟩]
  , projects := ["default"]
  , branches := []
  , prov := [] }

/-- C9 witness: the frame theorem applied to a database with a single row
whose id is 1, at the absent id 5. -/
theorem UpdateCommitMetadata_frame_witness :
    UpdateCommitMetadata dbW 5 [] = .error (.commitNotFound 5 ("")) :=
  (UpdateCommitMetadata_frame dbW 5 []).1 (by decide)

/-- C10: transactional iteration by filter rejects a missing filter
before any scan, while the open iteration and the iterator accept it: a
missing filter contributes no conditions, its scan is the unfiltered
ordered join, and the open iteration runs the callback over that full
scan. -/
theorem ForEachCommitTxByFilter_nil_filter :
    (∀ (σ : Type) (db : DB) (cb : CommitCB σ) (s : σ),
      ForEachCommitTxByFilter db none cb s = (s, some .filterEmpty)) ∧
    commitFilterConds none = [] ∧
    (∀ (db : DB),
      commitsScanRows db none =
        (listJoined db (fun _ => true)).mergeSort (fun a b => a.1.id ≤ b.1.id)) ∧
    (∀ (σ : Type) (db : DB) (cb : CommitCB σ) (s : σ),
      ForEachCommit db none cb s = foldCommits cb s (NewCommitsIterator db none)) := by
  refine ⟨fun σ db cb s => rfl, rfl, ?_, fun σ db cb s => rfl⟩
  intro db
  unfold commitsScanRows
  congr 1
  apply List.filter_eq_self.mpr
  intro pr _
  rfl

/-- C6: in the delta loop, exhausting the channel fails with the
watcher-closed error; a delete event invokes the delete handler, whose
error aborts the loop; an insert or update event performs a fresh lookup
whose error — in particular not-found when no row has the event id —
propagates and aborts, and otherwise feeds the looked-up commit to the
upsert handler; any other event kind aborts with the unknown-event
error. -/
theorem watchCommits_delta_spec (σ : Type) (db : DB) (onUpsert : CommitCB σ)
    (onDelete : DeleteCB σ) (s : σ) (e : PgEvent) (rest : List PgEvent) :
    (processEvents db onUpsert onDelete s [] = (s, some .watcherClosed)) ∧
    (e.err = none → e.typ = .delete →
      (∀ s' er, onDelete s e.id = (s', some er) →
        processEvents db onUpsert onDelete s (e :: rest) = (s', some er)) ∧
      (∀ s', onDelete s e.id = (s', none) →
        processEvents db onUpsert onDelete s (e :: rest) =
          processEvents db onUpsert onDelete s' rest)) ∧
    (e.err = none → (e.typ = .insert ∨ e.typ = .update) →
      (∀ er, GetCommitInfo db e.id = .error er →
        processEvents db onUpsert onDelete s (e :: rest) = (s, some er)) ∧
      (∀ info, GetCommitInfo db e.id = .ok info →
        (∀ s' er, onUpsert s ⟨e.id, info, ⟨0, [], [], []⟩, 0⟩ = (s', some er) →
          processEvents db onUpsert onDelete s (e :: rest) = (s', some er)) ∧
        (∀ s', onUpsert s ⟨e.id, info, ⟨0, [], [], []⟩, 0⟩ = (s', none) →
          processEvents db onUpsert onDelete s (e :: rest) =
            processEvents db onUpsert onDelete s' rest))) ∧
    ((∀ r ∈ db.commits, r.id ≠ e.id) → e.id ≠ 0 →
      GetCommitInfo db e.id = .error (.commitNotFound e.id (""))) ∧
    (e.err = none → ∀ n, e.typ = .other n →
      processEvents db onUpsert onDelete s (e :: rest) = (s, some .unknownEventType)) := by
  obtain ⟨typ, eid, eerr⟩ := e
  refine ⟨rfl, ?_, ?_, ?_, ?_⟩
  · intro herr htyp
    simp only at herr htyp
    subst herr htyp
    constructor
    · intro s' er hd
      simp only [processEvents, hd]
    · intro s' hd
      simp only [processEvents, hd]
  · intro herr htyp
    simp only at herr
    subst herr
    constructor
    · intro er hg
      rcases htyp with h | h <;> simp only at h <;> subst h <;>
        simp only [processEvents, hg]
    · intro info hg
      constructor
      · intro s' er hu
        rcases htyp with h | h <;> simp only at h <;> subst h <;>
          simp only [processEvents, hg, hu]
      · intro s' hu
        rcases htyp with h | h <;> simp only at h <;> subst h <;>
          simp only [processEvents, hg, hu]
  · intro hno h0
    simp only at hno h0 ⊢
    unfold GetCommitInfo getCommitRow
    have hnil : lookupJoined db (fun r => r.id = eid) = none := by
      unfold lookupJoined
      have : db.commits.filterMap (fun r =>
          match joinedRepo db r with
          | some rp => if (fun r => decide (r.id = eid)) r = true then some (r, rp) else none
          | none => none) = [] := by
        apply List.filterMap_eq_nil_iff.mpr
        intro r hr
        rcases joinedRepo db r with _ | rp
        · rfl
        · simp [hno r hr]
      rw [this]
      rfl
    rw [if_neg h0, hnil]
  · intro herr n htyp
    simp only at herr htyp
    subst herr htyp
    simp only [processEvents]

/-- Trivial upsert handler used by the witness. -/
def unitUpsert : CommitCB Unit := fun s _ => (s, none)

/-- Trivial delete handler used by the witness. -/
def unitDelete : DeleteCB Unit := fun s _ => (s, none)

/-- C6 witness: on the one-row database, an insert event for the absent
id 5 aborts the delta loop with the not-found error of the fresh
lookup. -/
theorem watchCommits_delta_spec_witness :
    processEvents dbW unitUpsert unitDelete () [⟨.insert, 5, none⟩] =
      ((), some (.commitNotFound 5 (""))) := by
  have h := watchCommits_delta_spec Unit dbW unitUpsert unitDelete () ⟨.insert, 5, none⟩ []
  have hnf := h.2.2.2.1 (by decide) (by decide)
  exact (h.2.2.1 rfl (Or.inl rfl)).1 _ hnf

/-- Every element of the deduplicated union already occurred in the
incoming rows. -/
theorem mem_dedupAgainst {seen xs : List ARow} {x : ARow} (h : x ∈ dedupAgainst seen xs) :
    x ∈ xs := by
  unfold dedupAgainst at h
  suffices haux : ∀ (ys : List ARow) (acc : List ARow),
      x ∈ ys.foldl (fun acc y => if y ∈ seen ∨ y ∈ acc then acc else acc ++ [y]) acc →
      x ∈ acc ∨ x ∈ ys by
    rcases haux xs [] h with h' | h'
    · cases h'
    · exact h'
  intro ys
  induction ys with
  | nil => intro acc hx; exact Or.inl hx
  | cons y t ih =>
    intro acc hx
    simp only [List.foldl_cons] at hx
    rcases ih _ hx with h' | h'
    · split at h'
      · exact Or.inl h'
      · rcases List.mem_append.mp h' with h'' | h''
        · exact Or.inl h''
        · simp only [List.mem_singleton] at h''
          subst h''
          exact Or.inr (List.mem_cons_self _ _)
    · exact Or.inr (List.mem_cons_of_mem _ h')

/-- Every row produced by one recursive round comes from a working row
below the depth bound and is one deeper. -/
theorem mem_newRows {edges : List (Nat × Nat)} {maxD : Nat} {work : List ARow} {x : ARow}
    (h : x ∈ newRows edges maxD work) :
    ∃ r ∈ work, r.depth < maxD ∧ x.depth = r.depth + 1 := by
  unfold newRows at h
  rcases List.mem_flatMap.mp h with ⟨r, hr, hx⟩
  refine ⟨r, hr, ?_⟩
  split at hx
  · rcases List.mem_map.mp hx with ⟨e, _, he⟩
    subst he
    exact ⟨by assumption, rfl⟩
  · cases hx

/-- Depth invariant of the query loop: accumulated rows stay within the
bound. -/
theorem cteLoop_depth_bound (edges : List (Nat × Nat)) (maxD : Nat) :
    ∀ (fuel : Nat) (seen work : List ARow),
      (∀ r ∈ seen, 1 ≤ r.depth ∧ r.depth ≤ maxD) →
      ∀ r ∈ cteLoop edges maxD fuel seen work, 1 ≤ r.depth ∧ r.depth ≤ maxD := by
  intro fuel
  induction fuel with
  | zero => intro seen work hs r hr; exact hs r hr
  | succ f ih =>
    intro seen work hs r hr
    simp only [cteLoop] at hr
    split at hr
    · exact hs r hr
    · refine ih _ _ ?_ r hr
      intro r' hr'
      rcases List.mem_append.mp hr' with h' | h'
      · exact hs r' h'
      · rcases mem_newRows (mem_dedupAgainst h') with ⟨r'', _, hlt, hd⟩
        omega

/-- C7: the ancestor walk always terminates — it is a total function of
the database — runs the callback exactly over the rows of the
depth-bounded recursive query, clamps a zero or over-large bound to the
search-depth cap, and every row it feeds to the callback, whatever the
shape of the edge relation (cycles included), lies at depth at least one
and at most the effective bound. -/
theorem ForEachCommitAncestor_depth_bound (σ : Type) (db : DB) (startId maxDepth : Nat)
    (cb : CB σ) (s : σ) :
    ((maxDepth = 0 ∨ maxDepth > MaxSearchDepth) → effectiveDepth maxDepth = MaxSearchDepth) ∧
    (1 ≤ effectiveDepth maxDepth ∧ effectiveDepth maxDepth ≤ MaxSearchDepth) ∧
    ForEachCommitAncestor db startId maxDepth cb s =
      foldRows cb s (commitAncestryRows db.ancestry startId (effectiveDepth maxDepth)) ∧
    (∀ r ∈ commitAncestryRows db.ancestry startId (effectiveDepth maxDepth),
      1 ≤ r.depth ∧ r.depth ≤ effectiveDepth maxDepth) := by
  refine ⟨?_, ?_, rfl, ?_⟩
  · intro h
    unfold effectiveDepth
    rw [if_pos h]
  · unfold effectiveDepth MaxSearchDepth
    split <;> omega
  · intro r hr
    unfold commitAncestryRows at hr
    refine cteLoop_depth_bound db.ancestry (effectiveDepth maxDepth) _ _ _ ?_ r hr
    intro r' hr'
    rcases List.mem_map.mp (mem_dedupAgainst hr') with ⟨e, _, he⟩
    subst he
    have : 1 ≤ effectiveDepth maxDepth := by
      unfold effectiveDepth MaxSearchDepth
      split <;> omega
    exact ⟨Nat.le_refl 1, this⟩

/-- Database whose ancestry is a two-cycle, exercising the walk on a
cyclic shape. -/
def dbCyc : DB :=
  { commits := [], ancestry := [(1, 2), (2, 1)], repos := [], projects := []
  , branches := [], prov := [] }

/-- C7 witness: the bound theorem applied on the two-cycle, showing the
clamp of a zero bound and the depth bound of a concrete row of the walk
at bound three. -/
theorem ForEachCommitAncestor_depth_bound_witness :
    effectiveDepth 0 = MaxSearchDepth ∧
    (1 ≤ (⟨1, 2, 1⟩ : ARow).depth ∧ (⟨1, 2, 1⟩ : ARow).depth ≤ effectiveDepth 3) := by
  have h0 := ForEachCommitAncestor_depth_bound Unit dbCyc 2 0
    (fun s _ _ => (s, none)) ()
  have h3 := ForEachCommitAncestor_depth_bound Unit dbCyc 2 3
    (fun s _ _ => (s, none)) ()
  exact ⟨h0.1 (Or.inl rfl), h3.2.2.2 ⟨1, 2, 1⟩ (by decide)⟩

/-- An ancestry insert leaves behind an edge with the inserted child. -/
theorem insertAncestryEdge_hasChild (anc : List (Nat × Nat)) (e : Nat × Nat) :
    (insertAncestryEdge anc e).any (fun e' => e'.2 = e.2) = true := by
  unfold insertAncestryEdge
  split
  · assumption
  · simp

/-- An ancestry insert preserves any satisfied row predicate. -/
theorem insertAncestryEdge_preserves_any (anc : List (Nat × Nat)) (e : Nat × Nat)
    (p : Nat × Nat → Bool) (h : anc.any p = true) :
    (insertAncestryEdge anc e).any p = true := by
  unfold insertAncestryEdge
  split
  · exact h
  · simp [List.any_append, h]

/-- An insert whose child already appears in the relation is a no-op. -/
theorem insertAncestryEdge_of_hasChild (anc : List (Nat × Nat)) (e : Nat × Nat)
    (h : anc.any (fun e' => e'.2 = e.2) = true) :
    insertAncestryEdge anc e = anc := by
  unfold insertAncestryEdge
  rw [if_pos h]

/-- Batch inserts preserve any satisfied row predicate. -/
theorem foldl_insert_preserves_any (q : Nat) (p : Nat × Nat → Bool) :
    ∀ (cs : List Nat) (anc : List (Nat × Nat)), anc.any p = true →
      (cs.foldl (fun a c => insertAncestryEdge a (q, c)) anc).any p = true := by
  intro cs
  induction cs with
  | nil => intro anc h; exact h
  | cons c t ih =>
    intro anc h
    exact ih _ (insertAncestryEdge_preserves_any _ _ _ h)

/-- After a batch insert, every inserted child appears in the relation. -/
theorem foldl_insert_covers (q : Nat) :
    ∀ (cs : List Nat) (anc : List (Nat × Nat)) (c : Nat), c ∈ cs →
      (cs.foldl (fun a c' => insertAncestryEdge a (q, c')) anc).any (fun e' => e'.2 = c) = true := by
  intro cs
  induction cs with
  | nil => intro anc c hc; cases hc
  | cons c0 t ih =>
    intro anc c hc
    rcases List.mem_cons.mp hc with h | h
    · subst h
      simp only [List.foldl_cons]
      exact foldl_insert_preserves_any q _ t _ (insertAncestryEdge_hasChild anc (q, c))
    · simp only [List.foldl_cons]
      exact ih _ _ h

/-- A batch insert whose children all already appear is a no-op. -/
theorem foldl_insert_idem (q : Nat) :
    ∀ (cs : List Nat) (anc : List (Nat × Nat)),
      (∀ c ∈ cs, anc.any (fun e' => e'.2 = c) = true) →
      cs.foldl (fun a c => insertAncestryEdge a (q, c)) anc = anc := by
  intro cs
  induction cs with
  | nil => intro anc _; rfl
  | cons c0 t ih =>
    intro anc h
    simp only [List.foldl_cons]
    rw [insertAncestryEdge_of_hasChild _ _ (h c0 (List.mem_cons_self _ _))]
    exact ih _ (fun c hc => h c (List.mem_cons_of_mem _ hc))

/-- A repeated batch insert over commit rows is a no-op. -/
theorem foldl_insert_rows_idem (p : Nat) (rows : List CommitRow) (anc : List (Nat × Nat)) :
    rows.foldl (fun a cr => insertAncestryEdge a (p, cr.id))
      (rows.foldl (fun a cr => insertAncestryEdge a (p, cr.id)) anc) =
    rows.foldl (fun a cr => insertAncestryEdge a (p, cr.id)) anc := by
  have hmap : ∀ (b : List (Nat × Nat)),
      rows.foldl (fun a cr => insertAncestryEdge a (p, cr.id)) b =
      (rows.map (fun cr => cr.id)).foldl (fun a c => insertAncestryEdge a (p, c)) b :=
    fun b => (List.foldl_map (fun cr : CommitRow => cr.id)
      (fun a c => insertAncestryEdge a (p, c)) rows b).symm
  rw [hmap, hmap]
  exact foldl_insert_idem p _ _ (fun c hc => foldl_insert_covers p _ _ c hc)

/-- A repeated batch insert over child ids is a no-op. -/
theorem foldl_insert_ids_idem (p : Nat) (cs : List Nat) (anc : List (Nat × Nat)) :
    cs.foldl (fun a c => insertAncestryEdge a (p, c))
      (cs.foldl (fun a c => insertAncestryEdge a (p, c)) anc) =
    cs.foldl (fun a c => insertAncestryEdge a (p, c)) anc :=
  foldl_insert_idem p _ _ (fun c hc => foldl_insert_covers p _ _ c hc)

/-- C8: repeating the same ancestry insert — single parent link, child
batch by key, or child batch by id — returns no error and leaves the
relation exactly as after the first insert. -/
theorem ancestry_insert_idempotent :
    (∀ (db : DB) (pc : PfsCommit) (cc : Nat) (db1 : DB),
      CreateCommitParent db pc cc = .ok db1 → CreateCommitParent db1 pc cc = .ok db1) ∧
    (∀ (db : DB) (p : Nat) (cs : List PfsCommit) (db1 : DB),
      CreateCommitChildren db p cs = .ok db1 → CreateCommitChildren db1 p cs = .ok db1) ∧
    (∀ (db : DB) (p : Nat) (cs : List Nat) (db1 : DB),
      CreateCommitAncestries db p cs = .ok db1 → CreateCommitAncestries db1 p cs = .ok db1) := by
  refine ⟨?_, ?_, ?_⟩
  · intro db pc cc db1 h
    unfold CreateCommitParent at h ⊢
    rcases hf : db.commits.find? (fun r => r.key = CommitKey pc) with _ | pr
    · rw [hf] at h; cases h
    · rw [hf] at h
      rw [Except.ok.injEq] at h
      subst h
      simp only [hf]
      rw [insertAncestryEdge_of_hasChild _ _ (insertAncestryEdge_hasChild _ _)]
  · intro db p cs db1 h
    unfold CreateCommitChildren at h ⊢
    split at h
    · cases h
    · rcases hm : cs.mapM (fun c => db.commits.find? (fun r => r.key = CommitKey c)) with _ | rows
      · rw [hm] at h; cases h
      · rw [hm] at h
        simp only [Except.ok.injEq] at h
        subst h
        rename_i hne
        rw [if_neg hne]
        simp only [hm]
        rw [foldl_insert_rows_idem]
  · intro db p cs db1 h
    unfold CreateCommitAncestries at h ⊢
    split at h
    · cases h
    · simp only [Except.ok.injEq] at h
      subst h
      rename_i hne
      rw [if_neg hne]
      simp only
      rw [foldl_insert_ids_idem]

/-- Concrete parent handle for the idempotence witness. -/
def pcW : PfsCommit := ⟨some ⟨"images", "user", some ("default")⟩, "c0", none⟩

/-- Database for the idempotence witness: the parent row with key c0 and
a second row, no edges yet. -/
def dbPar : DB :=
  { commits :=
      [ { id := 1, key := "default/images.user@c0", commitSetId := "c0"
        , repoId := 1, branchId := none, origin := "USER", description := ""
        , startTime := none, finishingTime := none, finishedTime := none
        , compactingTime := none, validatingTime := none, size := 0
        , error := "", metadata := [], createdBy := none, createdAt := 0, updatedAt := 0 }
      , { id := 2, key := "default/images.user@c1", commitSetId := "c1"
        , repoId := 1, branchId := none, origin := "USER", description := ""
        , startTime := none, finishingTime := none, finishedTime := none
        , compactingTime := none, validatingTime := none, size := 0
        , error := "", metadata := [], createdBy := none, createdAt := 0, updatedAt := 0 } ]
  , ancestry := []
  , repos := [⟨1, "images", "user", "default"⟩]
  , projects := ["default"]
  , branches := []
  , prov := [] }

/-- C8 witness: the idempotence theorem applied to a concrete parent link
whose first insert produced the edge from row one to row two. -/
theorem ancestry_insert_idempotent_witness :
    CreateCommitParent { dbPar with ancestry := [(1, 2)] } pcW 2 =
      .ok { dbPar with ancestry := [(1, 2)] } :=
  ancestry_insert_idempotent.1 dbPar pcW 2 { dbPar with ancestry := [(1, 2)] } (by rfl)

/-- Whether an internal id resolves to a row that satisfies the joins. -/
def hasJoinedRow (db : DB) (x : Nat) : Bool :=
  (lookupJoined db (fun r => r.id = x)).isSome

/-- A joined lookup succeeds exactly when some row satisfies the joins
and the predicate. -/
theorem lookupJoined_isSome_iff (db : DB) (p : CommitRow → Bool) :
    (lookupJoined db p).isSome = true ↔
      ∃ r ∈ db.commits, (joinedRepo db r).isSome = true ∧ p r = true := by
  unfold lookupJoined
  rw [List.head?_isSome]
  constructor
  · intro h
    rcases List.exists_mem_of_ne_nil _ h with ⟨pr, hpr⟩
    rcases List.mem_filterMap.mp hpr with ⟨r, hr, hf⟩
    refine ⟨r, hr, ?_⟩
    rcases hj : joinedRepo db r with _ | rp
    · simp only [hj] at hf; cases hf
    · simp only [hj] at hf
      refine ⟨rfl, ?_⟩
      by_cases hp : p r = true
      · exact hp
      · rw [if_neg hp] at hf; cases hf
  · rintro ⟨r, hr, hj, hp⟩
    intro hnil
    have hnone := List.filterMap_eq_nil_iff.mp hnil r hr
    rcases hjs : joinedRepo db r with _ | rp
    · rw [hjs] at hj; cases hj
    · simp only [hjs, if_pos hp] at hnone; cases hnone

/-- What a successful joined lookup returns: a member row satisfying the
joins and the predicate. -/
theorem lookupJoined_eq_some (db : DB) (p : CommitRow → Bool) (pr : CommitRow × RepoRow)
    (h : lookupJoined db p = some pr) :
    pr.1 ∈ db.commits ∧ joinedRepo db pr.1 = some pr.2 ∧ p pr.1 = true := by
  unfold lookupJoined at h
  have hmem := List.mem_of_mem_head? (Option.mem_def.mpr h)
  rcases List.mem_filterMap.mp hmem with ⟨r, hr, hf⟩
  rcases hj : joinedRepo db r with _ | rp
  · simp only [hj] at hf; cases hf
  · simp only [hj] at hf
    by_cases hp : p r = true
    · rw [if_pos hp] at hf
      rw [Option.some.injEq] at hf
      subst hf
      exact ⟨hr, hj, hp⟩
    · rw [if_neg hp] at hf; cases hf

/-- Membership in the joined list scan. -/
theorem mem_listJoined_iff (db : DB) (p : CommitRow → Bool) (pr : CommitRow × RepoRow) :
    pr ∈ listJoined db p ↔
      pr.1 ∈ db.commits ∧ joinedRepo db pr.1 = some pr.2 ∧ p pr.1 = true := by
  unfold listJoined
  rw [List.mem_filterMap]
  constructor
  · rintro ⟨r, hr, hf⟩
    rcases hj : joinedRepo db r with _ | rp
    · simp only [hj] at hf; cases hf
    · simp only [hj] at hf
      by_cases hp : p r = true
      · rw [if_pos hp] at hf
        rw [Option.some.injEq] at hf
        subst hf
        exact ⟨hr, hj, hp⟩
      · rw [if_neg hp] at hf; cases hf
  · rintro ⟨hr, hj, hp⟩
    exact ⟨pr.1, hr, by simp only [hj, if_pos hp]⟩

/-- The joined list scan is empty exactly when no joined row satisfies
the predicate. -/
theorem listJoined_eq_nil_iff (db : DB) (p : CommitRow → Bool) :
    listJoined db p = [] ↔
      ∀ r ∈ db.commits, (joinedRepo db r).isSome = true → p r = false := by
  unfold listJoined
  rw [List.filterMap_eq_nil_iff]
  constructor
  · intro h r hr hj
    rcases hjs : joinedRepo db r with _ | rp
    · rw [hjs] at hj; cases hj
    · have hnone := h r hr
      simp only [hjs] at hnone
      by_cases hp : p r = true
      · rw [if_pos hp] at hnone; cases hnone
      · simp only [Bool.not_eq_true] at hp
        exact hp
  · intro h r hr
    rcases hjs : joinedRepo db r with _ | rp
    · simp only [hjs]
    · simp only [hjs]
      rw [if_neg]
      rw [h r hr (by rw [hjs]; rfl)]
      intro hh
      cases hh

/-- A satisfied joined-row check names a member row with that id. -/
theorem hasJoinedRow_spec (db : DB) (x : Nat) (h : hasJoinedRow db x = true) :
    ∃ r ∈ db.commits, (joinedRepo db r).isSome = true ∧ r.id = x := by
  unfold hasJoinedRow at h
  rcases (lookupJoined_isSome_iff db _).mp h with ⟨r, hr, hj, hp⟩
  exact ⟨r, hr, hj, of_decide_eq_true hp⟩

/-- Mapping a projection over a filter-map that preserves the element is
a sublist of the projected base list. -/
theorem filterMap_map_sublist {α β γ : Type} (f : α → Option β) (g : β → γ) (h : α → γ)
    (hfg : ∀ a b, f a = some b → g b = h a) :
    ∀ l : List α, List.Sublist ((l.filterMap f).map g) (l.map h) := by
  intro l
  induction l with
  | nil => exact List.Sublist.refl _
  | cons a t ih =>
    rw [List.filterMap_cons]
    rcases hfa : f a with _ | b
    · exact List.Sublist.cons _ ih
    · rw [List.map_cons, List.map_cons, hfg a b hfa]
      exact List.Sublist.cons₂ _ ih

/-- Ids of the joined list scan form a sublist of the table ids. -/
theorem listJoined_ids_sublist (db : DB) (p : CommitRow → Bool) :
    List.Sublist ((listJoined db p).map (fun pr => pr.1.id)) (db.commits.map (fun r => r.id)) := by
  unfold listJoined
  refine filterMap_map_sublist _ _ _ ?_ db.commits
  intro a b hab
  rcases hj : joinedRepo db a with _ | rp
  · simp only [hj] at hab; cases hab
  · simp only [hj] at hab
    by_cases hp : p a = true
    · rw [if_pos hp, Option.some.injEq] at hab
      subst hab
      rfl
    · rw [if_neg hp] at hab; cases hab

/-- If the relatives computation reports no parent, then (given that every
edge endpoint resolves to a joined row) no edge points at the commit. -/
theorem relRows_parent_none (db : DB) (X : Nat)
    (hfk : ∀ e ∈ db.ancestry, hasJoinedRow db e.1 = true ∧ hasJoinedRow db e.2 = true)
    (h : (getCommitRelativeRows db X).1 = none) :
    ∀ p, (p, X) ∉ db.ancestry := by
  intro p hmem
  rcases hasJoinedRow_spec db p (hfk (p, X) hmem).1 with ⟨r, hr, hj, hid⟩
  have hsome : (lookupJoined db (fun r => (r.id, X) ∈ db.ancestry)).isSome = true := by
    refine (lookupJoined_isSome_iff db _).mpr ⟨r, hr, hj, ?_⟩
    rw [hid]
    exact decide_eq_true hmem
  unfold getCommitRelativeRows getCommitParentRow at h
  rcases hl : lookupJoined db (fun r => (r.id, X) ∈ db.ancestry) with _ | pr
  · rw [hl] at hsome; cases hsome
  · simp only [hl] at h
    cases h

/-- What the relatives computation reports as the parent: a member row
that is a parent of the commit in the relation. -/
theorem relRows_parent_some (db : DB) (X : Nat) (pr : CommitRow × RepoRow)
    (h : (getCommitRelativeRows db X).1 = some pr) :
    pr.1 ∈ db.commits ∧ (pr.1.id, X) ∈ db.ancestry := by
  unfold getCommitRelativeRows getCommitParentRow at h
  rcases hl : lookupJoined db (fun r => (r.id, X) ∈ db.ancestry) with _ | pr'
  · simp only [hl] at h
    cases h
  · simp only [hl, Option.some.injEq] at h
    subst h
    rcases lookupJoined_eq_some db _ _ hl with ⟨hr, _, hp⟩
    exact ⟨hr, of_decide_eq_true hp⟩

/-- If the relatives computation reports no children, then (given the
joined-row condition on edge endpoints) no edge leaves the commit. -/
theorem relRows_children_none (db : DB) (X : Nat)
    (hfk : ∀ e ∈ db.ancestry, hasJoinedRow db e.1 = true ∧ hasJoinedRow db e.2 = true)
    (h : (getCommitRelativeRows db X).2 = none) :
    ∀ ch, (X, ch) ∉ db.ancestry := by
  intro ch hmem
  rcases hasJoinedRow_spec db ch (hfk (X, ch) hmem).2 with ⟨r, hr, hj, hid⟩
  unfold getCommitRelativeRows getCommitChildrenRows at h
  rcases hl : listJoined db (fun r => (X, r.id) ∈ db.ancestry) with _ | ⟨y, t⟩
  · have := (listJoined_eq_nil_iff db _).mp hl r hr hj
    rw [hid] at this
    rw [decide_eq_true hmem] at this
    cases this
  · simp only [hl] at h
    cases h

/-- What the relatives computation reports as the children: the joined
scan of child rows, nonempty, each a child in the relation, and covering
every child that resolves to a joined row. -/
theorem relRows_children_some (db : DB) (X : Nat) (cs : List (CommitRow × RepoRow))
    (h : (getCommitRelativeRows db X).2 = some cs) :
    cs ≠ [] ∧ cs = listJoined db (fun r => (X, r.id) ∈ db.ancestry) ∧
    (∀ pr ∈ cs, (X, pr.1.id) ∈ db.ancestry) ∧
    (∀ C, hasJoinedRow db C = true → (X, C) ∈ db.ancestry →
      C ∈ cs.map (fun pr => pr.1.id)) := by
  unfold getCommitRelativeRows getCommitChildrenRows at h
  rcases hl : listJoined db (fun r => (X, r.id) ∈ db.ancestry) with _ | ⟨y, t⟩
  · simp only [hl] at h
    cases h
  · simp only [hl, Option.some.injEq] at h
    subst h
    refine ⟨(by intro hh; cases hh), rfl, ?_, ?_⟩
    · intro pr hpr
      have hmm := ((mem_listJoined_iff db _ pr).mp (by rw [hl]; exact hpr)).2.2
      exact of_decide_eq_true hmm
    · intro C hC hmem
      rcases hasJoinedRow_spec db C hC with ⟨r, hr, hj, hid⟩
      rcases hjs : joinedRepo db r with _ | rp
      · rw [hjs] at hj; cases hj
      · have hin : (r, rp) ∈ listJoined db (fun r => (X, r.id) ∈ db.ancestry) := by
          refine (mem_listJoined_iff db _ _).mpr ⟨hr, hjs, ?_⟩
          simp only [hid]
          exact decide_eq_true hmem
        rw [hl] at hin
        refine List.mem_map.mpr ⟨(r, rp), hin, hid⟩

/-- Batch inserts only grow the relation. -/
theorem mem_foldl_insert_of_mem (q : Nat) (cs : List Nat) :
    ∀ (anc : List (Nat × Nat)) (e : Nat × Nat), e ∈ anc →
      e ∈ cs.foldl (fun a c => insertAncestryEdge a (q, c)) anc := by
  induction cs with
  | nil => intro anc e he; exact he
  | cons c t ih =>
    intro anc e he
    simp only [List.foldl_cons]
    refine ih _ _ ?_
    unfold insertAncestryEdge
    split
    · exact he
    · exact List.mem_append_left _ he

/-- Everything in a batch-insert result is either old or one of the
inserted pairs. -/
theorem mem_foldl_insert (q : Nat) (cs : List Nat) :
    ∀ (anc : List (Nat × Nat)) (e : Nat × Nat),
      e ∈ cs.foldl (fun a c => insertAncestryEdge a (q, c)) anc →
      e ∈ anc ∨ ∃ c ∈ cs, e = (q, c) := by
  induction cs with
  | nil => intro anc e he; exact Or.inl he
  | cons c t ih =>
    intro anc e he
    simp only [List.foldl_cons] at he
    rcases ih _ _ he with h | ⟨c', hc', he'⟩
    · unfold insertAncestryEdge at h
      split at h
      · exact Or.inl h
      · rcases List.mem_append.mp h with h' | h'
        · exact Or.inl h'
        · simp only [List.mem_singleton] at h'
          exact Or.inr ⟨c, List.mem_cons_self _ _, h'⟩
    · exact Or.inr ⟨c', List.mem_cons_of_mem _ hc', he'⟩

/-- When no existing edge conflicts with any inserted child and the
children are distinct, every inserted pair lands in the relation. -/
theorem foldl_insert_mem_inserted (q : Nat) :
    ∀ (cs : List Nat) (anc : List (Nat × Nat)), cs.Nodup →
      (∀ e ∈ anc, e.2 ∉ cs) →
      ∀ c ∈ cs, (q, c) ∈ cs.foldl (fun a c' => insertAncestryEdge a (q, c')) anc := by
  intro cs
  induction cs with
  | nil => intro anc _ _ c hc; cases hc
  | cons c0 t ih =>
    intro anc hnd hno c hc
    simp only [List.foldl_cons]
    have hins : insertAncestryEdge anc (q, c0) = anc ++ [(q, c0)] := by
      unfold insertAncestryEdge
      rw [if_neg]
      intro hany
      rcases List.any_eq_true.mp hany with ⟨e, he, hP⟩
      simp only [decide_eq_true_eq] at hP
      exact hno e he (by rw [hP]; exact List.mem_cons_self _ _)
    rcases List.mem_cons.mp hc with h | h
    · subst h
      refine mem_foldl_insert_of_mem q t _ _ ?_
      rw [hins]
      exact List.mem_append_right _ (List.mem_singleton.mpr rfl)
    · refine ih _ (List.Nodup.of_cons hnd) ?_ c h
      intro e he
      rw [hins] at he
      rcases List.mem_append.mp he with h' | h'
      · intro hmem
        exact hno e h' (List.mem_cons_of_mem _ hmem)
      · simp only [List.mem_singleton] at h'
        subst h'
        simp only
        exact (List.nodup_cons.mp hnd).1

/-- C1: after a successful delete of the commit resolving to internal id
X — on a well-formed state: at most one parent per child, edge endpoints
resolving to joined rows, distinct row ids, no self-loop at X — the
ancestry relation contains no edge mentioning X; it contains the edge
from X's parent to each of X's children when both sides existed; when
either side was absent the edges touching X are simply removed and
nothing else is inserted; and every edge not touching X survives. -/
theorem DeleteCommit_repoints (db : DB) (c : PfsCommit) (X : Nat) (db' : DB)
    (hid : GetCommitID db (some c) = .ok X)
    (hdel : DeleteCommit db (some c) = .ok db')
    (hu : ∀ e ∈ db.ancestry, ∀ e' ∈ db.ancestry, e.2 = e'.2 → e.1 = e'.1)
    (hfk : ∀ e ∈ db.ancestry, hasJoinedRow db e.1 = true ∧ hasJoinedRow db e.2 = true)
    (hids : (db.commits.map (fun r => r.id)).Nodup)
    (hxx : (X, X) ∉ db.ancestry) :
    (∀ e ∈ db'.ancestry, e.1 ≠ X ∧ e.2 ≠ X) ∧
    (∀ P C, (P, X) ∈ db.ancestry → (X, C) ∈ db.ancestry → (P, C) ∈ db'.ancestry) ∧
    (((∀ p, (p, X) ∉ db.ancestry) ∨ (∀ ch, (X, ch) ∉ db.ancestry)) →
      db'.ancestry = db.ancestry.filter (fun e => ¬ (e.1 = X ∨ e.2 = X))) ∧
    (∀ e ∈ db.ancestry, e.1 ≠ X → e.2 ≠ X → e ∈ db'.ancestry) := by
  unfold DeleteCommit at hdel
  simp only [hid] at hdel
  rcases hpar : (getCommitRelativeRows db X).1 with _ | pr
  · rcases hch : (getCommitRelativeRows db X).2 with _ | cs
    · -- no parent, no children: nothing removed, nothing inserted
      have hP := relRows_parent_none db X hfk hpar
      have hC := relRows_children_none db X hfk hch
      simp only [hpar, hch, Option.isSome_none] at hdel
      simp only [Bool.false_eq_true, false_or, if_false] at hdel
      split at hdel
      · cases hdel
      · rw [Except.ok.injEq] at hdel
        subst hdel
        have hclean : ∀ e ∈ db.ancestry, e.1 ≠ X ∧ e.2 ≠ X := by
          intro e he
          constructor
          · intro h1
            have hmm : (e.1, e.2) ∈ db.ancestry := he
            rw [h1] at hmm
            exact hC e.2 hmm
          · intro h2
            have hmm : (e.1, e.2) ∈ db.ancestry := he
            rw [h2] at hmm
            exact hP e.1 hmm
        refine ⟨hclean, ?_, ?_, ?_⟩
        · intro P C h1 _
          exact absurd h1 (hP P)
        · intro _
          refine (List.filter_eq_self.mpr ?_).symm
          intro e he
          refine decide_eq_true ?_
          rcases hclean e he with ⟨h1, h2⟩
          rintro (h | h)
          · exact h1 h
          · exact h2 h
        · intro e he _ _
          exact he
    · -- children only: edges removed, nothing inserted
      have hP := relRows_parent_none db X hfk hpar
      rcases relRows_children_some db X cs hch with ⟨hne, hcs_eq, hmemc, hcov⟩
      simp only [hpar, hch, Option.isSome_none, Option.isSome_some] at hdel
      simp only [Bool.false_eq_true, false_or, if_true] at hdel
      split at hdel
      · cases hdel
      · rw [Except.ok.injEq] at hdel
        subst hdel
        refine ⟨?_, ?_, ?_, ?_⟩
        · intro e he
          have hmk := List.mem_filter.mp he
          have hnp := of_decide_eq_true hmk.2
          exact not_or.mp hnp
        · intro P C h1 _
          exact absurd h1 (hP P)
        · intro _
          rfl
        · intro e he h1 h2
          refine List.mem_filter.mpr ⟨he, decide_eq_true ?_⟩
          rintro (h | h)
          · exact h1 h
          · exact h2 h
  · rcases hch : (getCommitRelativeRows db X).2 with _ | cs
    · -- parent only: edges removed, nothing inserted
      rcases relRows_parent_some db X pr hpar with ⟨hprmem, hPmem⟩
      have hC := relRows_children_none db X hfk hch
      simp only [hpar, hch, Option.isSome_none, Option.isSome_some] at hdel
      simp only [Bool.false_eq_true, or_false, if_true] at hdel
      split at hdel
      · cases hdel
      · rw [Except.ok.injEq] at hdel
        subst hdel
        refine ⟨?_, ?_, ?_, ?_⟩
        · intro e he
          have hmk := List.mem_filter.mp he
          have hnp := of_decide_eq_true hmk.2
          exact not_or.mp hnp
        · intro P C _ h2
          exact absurd h2 (hC C)
        · intro _
          rfl
        · intro e he h1 h2
          refine List.mem_filter.mpr ⟨he, decide_eq_true ?_⟩
          rintro (h | h)
          · exact h1 h
          · exact h2 h
    · -- both sides: edges removed, parent re-linked to every child
      rcases relRows_parent_some db X pr hpar with ⟨hprmem, hPmem⟩
      rcases relRows_children_some db X cs hch with ⟨hne, hcs_eq, hmemc, hcov⟩
      have hmape : (cs.map (fun pr => pr.1.id)).isEmpty = false := by
        rcases cs with _ | ⟨y, t⟩
        · exact absurd rfl hne
        · rfl
      simp only [hpar, hch, Option.isSome_some] at hdel
      simp only [true_or, if_true] at hdel
      rw [CreateCommitAncestries] at hdel
      simp only [hmape, Bool.false_eq_true, if_false] at hdel
      split at hdel
      · cases hdel
      · rw [Except.ok.injEq] at hdel
        subst hdel
        have hP0ne : pr.1.id ≠ X := by
          intro h
          rw [h] at hPmem
          exact hxx hPmem
        have hCine : ∀ ci ∈ cs.map (fun pr => pr.1.id), ci ≠ X := by
          intro ci hci h
          rcases List.mem_map.mp hci with ⟨pr', hpr', hpr'id⟩
          have hmm := hmemc pr' hpr'
          rw [hpr'id, h] at hmm
          exact hxx hmm
        have hnoc : ∀ e ∈ db.ancestry.filter (fun e => ¬ (e.1 = X ∨ e.2 = X)),
            e.2 ∉ cs.map (fun pr => pr.1.id) := by
          intro e he hci
          have hmk := List.mem_filter.mp he
          have hnp := not_or.mp (of_decide_eq_true hmk.2)
          rcases List.mem_map.mp hci with ⟨pr', hpr', hpr'id⟩
          have hmm := hmemc pr' hpr'
          rw [hpr'id] at hmm
          exact hnp.1 (hu e hmk.1 (X, e.2) hmm rfl)
        have hnodup : (cs.map (fun pr => pr.1.id)).Nodup := by
          rw [hcs_eq]
          exact List.Nodup.sublist (listJoined_ids_sublist db _) hids
        refine ⟨?_, ?_, ?_, ?_⟩
        · intro e he
          rcases mem_foldl_insert _ _ _ _ he with h | ⟨ci, hci, he'⟩
          · have hmk := List.mem_filter.mp h
            have hnp := of_decide_eq_true hmk.2
            exact not_or.mp hnp
          · subst he'
            exact ⟨hP0ne, hCine ci hci⟩
        · intro P C h1 h2
          have hPP0 : P = pr.1.id := hu (P, X) h1 (pr.1.id, X) hPmem rfl
          have hCid : C ∈ cs.map (fun pr => pr.1.id) := hcov C (hfk (X, C) h2).2 h2
          rw [hPP0]
          exact foldl_insert_mem_inserted pr.1.id _ _ hnodup hnoc C hCid
        · rintro (h | h)
          · exact absurd hPmem (h pr.1.id)
          · rcases cs with _ | ⟨y, t⟩
            · exact absurd rfl hne
            · exact absurd (hmemc y (List.mem_cons_self _ _)) (h y.1.id)
        · intro e he h1 h2
          refine mem_foldl_insert_of_mem _ _ _ _ ?_
          refine List.mem_filter.mpr ⟨he, decide_eq_true ?_⟩
          rintro (h | h)
          · exact h1 h
          · exact h2 h

/-- Row template for concrete databases: repo one, origin user, key
derived from the commit-set id. -/
def mkRow (i : Nat) (cid : String) : CommitRow :=
  { id := i, key := "default/images.user@" ++ cid, commitSetId := cid
  , repoId := 1, branchId := none, origin := "USER", description := ""
  , startTime := none, finishingTime := none, finishedTime := none
  , compactingTime := none, validatingTime := none, size := 0
  , error := "", metadata := [], createdBy := none, createdAt := 0, updatedAt := 0 }

/-- Concrete database with the chain one to two to three. -/
def dbChain3 : DB :=
  { commits := [mkRow 1 "c1", mkRow 2 "c2", mkRow 3 "c3"]
  , ancestry := [(1, 2), (2, 3)]
  , repos := [⟨1, "images", "user", "default"⟩]
  , projects := ["default"]
  , branches := []
  , prov := [] }

/-- Handle of the middle commit of the chain. -/
def cDel : PfsCommit := ⟨some ⟨"images", "user", some ("default")⟩, "c2", none⟩

/-- State after deleting the middle commit: its row and edges gone, the
edge from one to three inserted. -/
def dbDel' : DB :=
  { commits := [mkRow 1 "c1", mkRow 3 "c3"]
  , ancestry := [(1, 3)]
  , repos := [⟨1, "images", "user", "default"⟩]
  , projects := ["default"]
  , branches := []
  , prov := [] }

/-- C1 witness: deleting the middle commit of the chain repoints the edge
and leaves no edge mentioning it. -/
theorem DeleteCommit_repoints_witness :
    ((1, 3) ∈ dbDel'.ancestry) ∧ (∀ e ∈ dbDel'.ancestry, e.1 ≠ 2 ∧ e.2 ≠ 2) :=
  have h := DeleteCommit_repoints dbChain3 cDel 2 dbDel'
    (by decide) (by decide) (by decide) (by decide) (by decide) (by decide)
  ⟨h.2.1 1 3 (by decide) (by decide), h.1⟩

/-- C2: with a commit record that validates, creation branches on the
probe by key exactly as specified: a successful probe fails creation with
already-exists and performs no insert; a probe failing with repo- or
project-not-found propagates that error; a probe failing with anything
that is not commit-not-found propagates; and only a bare
commit-not-found lets the insert phase run. -/
theorem CreateCommit_probe (db : DB) (ci ci' : CommitInfo) (opts : List AncestryOpt)
    (hv : validateCommitInfo ci = .ok ci') :
    (∀ cm, GetCommitByKey db ci'.commit = .ok cm →
      CreateCommit db ci opts = .error (.commitAlreadyExists (commitKeyOpt cm.info.commit))) ∧
    (∀ e, GetCommitByKey db ci'.commit = .error e →
      (asProjectNotFound e = true ∨ asRepoNotFound e = true) →
      CreateCommit db ci opts = .error e) ∧
    (∀ e, GetCommitByKey db ci'.commit = .error e → asCommitNotFound e = false →
      CreateCommit db ci opts = .error e) ∧
    (∀ e, GetCommitByKey db ci'.commit = .error e → asCommitNotFound e = true →
      asProjectNotFound e = false → asRepoNotFound e = false →
      CreateCommit db ci opts = createCommitInsert db ci' (opts.headD ⟨false, false⟩)) := by
  refine ⟨?_, ?_, ?_, ?_⟩
  · intro cm hp
    unfold CreateCommit
    simp only [hv, hp]
  · intro e hp hor
    unfold CreateCommit
    simp only [hv, hp]
    rw [if_pos]
    rcases hor with h | h
    · exact Or.inl h
    · exact Or.inr h
  · intro e hp hcnf
    unfold CreateCommit
    simp only [hv, hp]
    by_cases hor : asProjectNotFound e = true ∨ asRepoNotFound e = true
    · rw [if_pos hor]
    · rw [if_neg hor, if_pos]
      rw [hcnf]
      intro hh
      cases hh
  · intro e hp hcnf hpnf hrnf
    unfold CreateCommit
    simp only [hv, hp]
    rw [if_neg, if_neg]
    · intro hh
      rw [hcnf] at hh
      exact hh rfl
    · rintro (h | h)
      · rw [hpnf] at h; cases h
      · rw [hrnf] at h; cases h

/-- Fallback commit value used to name probe results. -/
def defaultCommit : Commit :=
  ⟨0, ⟨none, none, none, none, [], none, none, none, "", "", [], ""⟩, ⟨0, [], [], []⟩, 0⟩

/-- Commit record probing the key already present in the one-row
database. -/
def ciW : CommitInfo :=
  { commit := some ⟨some ⟨"images", "user", some ("default")⟩, "c1", none⟩
  , origin := some 1
  , details := some ⟨none, none, 0⟩
  , parentCommit := none
  , childCommits := []
  , started := none
  , finishing := none
  , finished := none
  , description := ""
  , error := ""
  , metadata := []
  , createdBy := "" }

/-- The commit the probe finds for the existing key. -/
def cmW : Commit := (GetCommitByKey dbW ciW.commit).toOption.getD defaultCommit

/-- C2 witness: creating a commit whose key already exists fails with the
already-exists error. -/
theorem CreateCommit_probe_witness :
    CreateCommit dbW ciW [] = .error (.commitAlreadyExists (commitKeyOpt cmW.info.commit)) ∧
    commitKeyOpt cmW.info.commit = "default/images.user@c1" :=
  have h := CreateCommit_probe dbW ciW ciW [] (by decide)
  ⟨h.1 cmW (by decide), by decide⟩

/-- A descending chain of the ancestry relation: consecutive elements are
child then parent, and the last element is a root (no edge points into
it).  This is the shape the acyclicity and single-parent invariants give
to the ancestor set of any commit. -/
def isCochain (edges : List (Nat × Nat)) : List Nat → Prop
  | [] => True
  | [x] => ∀ e ∈ edges, e.2 ≠ x
  | a :: b :: rest => ((b, a) ∈ edges) ∧ isCochain edges (b :: rest)

/-- Chains are checkable. -/
instance instDecCochain (edges : List (Nat × Nat)) : (l : List Nat) → Decidable (isCochain edges l)
  | [] => .isTrue trivial
  | [x] => inferInstanceAs (Decidable (∀ e ∈ edges, e.2 ≠ x))
  | a :: b :: rest =>
    have : Decidable (isCochain edges (b :: rest)) := instDecCochain edges (b :: rest)
    inferInstanceAs (Decidable (((b, a) ∈ edges) ∧ isCochain edges (b :: rest)))

/-- The single-parent invariant: two edges with the same child share
their parent. -/
def uniqueChild (edges : List (Nat × Nat)) : Prop :=
  ∀ e ∈ edges, ∀ e' ∈ edges, e.2 = e'.2 → e.1 = e'.1

/-- Query rows along a chain: one row per consecutive pair, parent then
child, at increasing depth. -/
def chainRowsFrom : List Nat → Nat → List ARow
  | [], _ => []
  | [_], _ => []
  | a :: b :: rest, d => ⟨b, a, d⟩ :: chainRowsFrom (b :: rest) (d + 1)

/-- In a duplicate-free list, a predicate spotting exactly one member
filters to that singleton. -/
theorem filter_eq_singleton_of_unique {α : Type} (l : List α) (p : α → Bool) (x : α)
    (hnd : l.Nodup) (hx : x ∈ l) (hpx : p x = true)
    (huniq : ∀ y ∈ l, p y = true → y = x) :
    l.filter p = [x] := by
  induction l with
  | nil => cases hx
  | cons h t ih =>
    rw [List.filter_cons]
    rcases List.mem_cons.mp hx with rfl | hxt
    · rw [if_pos hpx]
      have hnil : t.filter p = [] := by
        apply List.filter_eq_nil_iff.mpr
        intro y hy hpy
        have hyx := huniq y (List.mem_cons_of_mem _ hy) hpy
        subst hyx
        exact (List.nodup_cons.mp hnd).1 hy
      rw [hnil]
    · have hph : p h = false := by
        by_cases hp : p h = true
        · have hhx := huniq h (List.mem_cons_self _ _) hp
          subst hhx
          exact absurd hxt (List.nodup_cons.mp hnd).1
        · simp only [Bool.not_eq_true] at hp
          exact hp
      rw [hph]
      simp only [Bool.false_eq_true, if_false]
      exact ih (List.nodup_cons.mp hnd).2 hxt
        (fun y hy hpy => huniq y (List.mem_cons_of_mem _ hy) hpy)

/-- Under the single-parent invariant, the edges into a child with a
known parent filter to that single edge. -/
theorem filter_child_singleton (edges : List (Nat × Nat)) (hu : uniqueChild edges)
    (hnd : edges.Nodup) (a b : Nat) (hmem : (b, a) ∈ edges) :
    edges.filter (fun e => e.2 = a) = [(b, a)] := by
  refine filter_eq_singleton_of_unique edges _ (b, a) hnd hmem (decide_eq_true rfl) ?_
  intro y hy hpy
  have h2 : y.2 = a := of_decide_eq_true hpy
  have h1 : y.1 = b := hu y hy (b, a) hmem (by rw [h2])
  calc y = (y.1, y.2) := rfl
    _ = (b, a) := by rw [h1, h2]

/-- A root has no edges into it, so the child filter is empty. -/
theorem filter_child_nil (edges : List (Nat × Nat)) (x : Nat)
    (hroot : ∀ e ∈ edges, e.2 ≠ x) :
    edges.filter (fun e => e.2 = x) = [] := by
  apply List.filter_eq_nil_iff.mpr
  intro e he hpe
  exact hroot e he (of_decide_eq_true hpe)

/-- One recursive round on a single working row. -/
theorem newRows_singleton (edges : List (Nat × Nat)) (maxD : Nat) (r : ARow) :
    newRows edges maxD [r] =
      if r.depth < maxD then
        (edges.filter (fun e => e.2 = r.parent)).map (fun e => ⟨e.1, e.2, r.depth + 1⟩)
      else [] := by
  unfold newRows
  rw [List.flatMap_cons, List.flatMap_nil, List.append_nil]

/-- Deduplicating a fresh singleton keeps it. -/
theorem dedupAgainst_singleton (seen : List ARow) (x : ARow) (h : x ∉ seen) :
    dedupAgainst seen [x] = [x] := by
  unfold dedupAgainst
  simp [h]

/-- The query loop walks a chain verbatim: starting from a working row
whose parent heads the remaining chain, it accumulates exactly the chain
rows of increasing depth, truncated at the depth bound. -/
theorem cteLoop_chain (edges : List (Nat × Nat)) (maxD : Nat) (hu : uniqueChild edges)
    (hnd : edges.Nodup) :
    ∀ (fuel : Nat) (x : Nat) (rest : List Nat) (d : Nat) (seen : List ARow) (r : ARow),
      isCochain edges (x :: rest) → (x :: rest).Nodup →
      r.parent = x → r.depth = d →
      1 ≤ d → d ≤ maxD → maxD + 1 ≤ fuel + d →
      (∀ s ∈ seen, s.child ∉ x :: rest) →
      cteLoop edges maxD fuel seen [r] =
        seen ++ chainRowsFrom ((x :: rest).take (maxD - d + 1)) (d + 1) := by
  intro fuel
  induction fuel with
  | zero =>
    intro x rest d seen r _ _ _ _ _ hdm hf _
    omega
  | succ f ih =>
    intro x rest d seen r hc hln hrp hrd hd1 hdm hf hseen
    rw [cteLoop]
    rw [newRows_singleton]
    rcases rest with _ | ⟨y, rest'⟩
    · -- root reached: no new rows
      have hroot : ∀ e ∈ edges, e.2 ≠ x := hc
      have hnil : (if r.depth < maxD then
          (edges.filter (fun e => e.2 = r.parent)).map
            (fun e => ⟨e.1, e.2, r.depth + 1⟩) else []) = ([] : List ARow) := by
        split
        · rw [hrp, filter_child_nil edges x hroot, List.map_nil]
        · rfl
      rw [hnil]
      simp only [dedupAgainst, List.foldl_nil, List.isEmpty_nil, if_true]
      have hcr : chainRowsFrom ([x].take (maxD - d + 1)) (d + 1) = [] := by
        rw [List.take_succ_cons, List.take_nil]
        rfl
      rw [hcr, List.append_nil]
    · rcases hc with ⟨hxy, hcrest⟩
      by_cases hlt : d < maxD
      · -- one new row, following the chain
        have hrdlt : r.depth < maxD := by rw [hrd]; exact hlt
        rw [if_pos hrdlt, hrp, filter_child_singleton edges hu hnd x y hxy]
        rw [List.map_cons, List.map_nil]
        have hnotin : (⟨y, x, r.depth + 1⟩ : ARow) ∉ seen := by
          intro hmem
          exact hseen _ hmem (List.mem_cons_self _ _)
        rw [dedupAgainst_singleton seen _ hnotin]
        simp only [List.isEmpty_cons, if_false]
        have hrec := ih y rest' (d + 1) (seen ++ [⟨y, x, r.depth + 1⟩]) ⟨y, x, r.depth + 1⟩
          hcrest (List.nodup_cons.mp hln).2 rfl (by rw [hrd]) (by omega) (by omega) (by omega)
          ?_
        · rw [hrec]
          have htk : (x :: y :: rest').take (maxD - d + 1) =
              x :: y :: (rest'.take (maxD - d - 1)) := by
            rw [List.take_succ_cons]
            congr 1
            have hmm : maxD - d = (maxD - d - 1) + 1 := by omega
            rw [hmm, List.take_succ_cons]
            simp only [Nat.add_sub_cancel]
          rw [htk]
          rw [chainRowsFrom]
          have htk3 : (y :: rest').take (maxD - (d + 1) + 1) =
              y :: (rest'.take (maxD - d - 1)) := by
            have hmm : maxD - (d + 1) + 1 = (maxD - d - 1) + 1 := by omega
            rw [hmm, List.take_succ_cons]
          rw [htk3]
          simp [hrd]
        · intro s hs
          rcases List.mem_append.mp hs with h | h
          · intro hmem
            exact hseen s h (List.mem_cons_of_mem _ hmem)
          · simp only [List.mem_singleton] at h
            subst h
            simp only
            exact (List.nodup_cons.mp hln).1
      · -- bound reached: no new rows
        have hrdnlt : ¬ r.depth < maxD := by rw [hrd]; exact hlt
        rw [if_neg hrdnlt]
        simp only [dedupAgainst, List.foldl_nil, List.isEmpty_nil, if_true]
        have hdm' : maxD - d = 0 := by omega
        have : (x :: y :: rest').take (maxD - d + 1) = [x] := by
          rw [hdm']
          rfl
        rw [this]
        rw [chainRowsFrom, List.append_nil]

/-- The recursive ancestry query from the head of a chain returns exactly
the chain rows, truncated at the depth bound. -/
theorem commitAncestryRows_chain (edges : List (Nat × Nat)) (hu : uniqueChild edges)
    (hnd : edges.Nodup) (x : Nat) (rest : List Nat) (maxD : Nat)
    (hc : isCochain edges (x :: rest)) (hln : (x :: rest).Nodup) (hmd : 1 ≤ maxD) :
    commitAncestryRows edges x maxD = chainRowsFrom ((x :: rest).take (maxD + 1)) 1 := by
  unfold commitAncestryRows
  rcases rest with _ | ⟨y, rest'⟩
  · have hroot : ∀ e ∈ edges, e.2 ≠ x := hc
    rw [filter_child_nil edges x hroot, List.map_nil]
    rcases maxD with _ | f
    · omega
    · rw [cteLoop]
      simp only [newRows, dedupAgainst, List.flatMap_nil, List.foldl_nil,
        List.isEmpty_nil, if_true]
      rw [List.take_succ_cons, List.take_nil]
      rfl
  · rcases hc with ⟨hxy, hcrest⟩
    rw [filter_child_singleton edges hu hnd x y hxy, List.map_cons, List.map_nil]
    rw [dedupAgainst_singleton [] _ (List.not_mem_nil _)]
    have hloop := cteLoop_chain edges maxD hu hnd maxD y rest' 1
      [⟨y, x, 1⟩] ⟨y, x, 1⟩ hcrest (List.nodup_cons.mp hln).2 rfl rfl
      (Nat.le_refl 1) hmd (by omega) ?_
    · rw [hloop]
      have htk3 : (y :: rest').take (maxD - 1 + 1) = y :: rest'.take (maxD - 1) :=
        List.take_succ_cons
      rw [htk3]
      rw [List.take_succ_cons]
      have htk2 : (y :: rest').take maxD = y :: rest'.take (maxD - 1) :=
        List.take_cons (by omega)
      rw [htk2, chainRowsFrom]
      simp
    · intro s hs
      simp only [List.mem_singleton] at hs
      subst hs
      simp only
      exact (List.nodup_cons.mp hln).1

/-- Reference fold of a callback along the edges of a chain, child before
parent, stopping at the first error. -/
def chainFold {σ : Type} (cb : CB σ) : σ → List Nat → σ × Option Err
  | s, [] => (s, none)
  | s, [_] => (s, none)
  | s, a :: b :: rest =>
    match cb s b a with
    | (s', some e) => (s', some e)
    | (s', none) => chainFold cb s' (b :: rest)

/-- Chain fold instrumented with the earliest ancestor seen, mirroring
the wrapper callback of the batched walk. -/
def chainFoldE {σ : Type} (cb : CB σ) : Nat → σ → List Nat → (Nat × σ) × Option Err
  | e0, s, [] => ((e0, s), none)
  | e0, s, [_] => ((e0, s), none)
  | e0, s, a :: b :: rest =>
    match cb s b a with
    | (s', some e) => ((b, s'), some e)
    | (s', none) => chainFoldE cb b s' (b :: rest)

/-- A nonempty list's last element does not depend on the default. -/
theorem getLastD_irrel {α : Type} (a : α) (l : List α) (d d' : α) :
    (a :: l).getLastD d = (a :: l).getLastD d' := by
  rw [List.getLastD_cons, List.getLastD_cons]

/-- A nonempty list contains its last element. -/
theorem getLastD_mem {α : Type} (a : α) (l : List α) (d : α) :
    (a :: l).getLastD d ∈ a :: l := by
  induction l generalizing a with
  | nil => simp [List.getLastD]
  | cons b t ih =>
    rw [List.getLastD_cons]
    exact List.mem_cons_of_mem _ (ih b)

/-- The last element of a prefix of length k plus one is the head of the
drop by k. -/
theorem take_getLastD_eq_drop_headD {α : Type} :
    ∀ (k : Nat) (l : List α) (d : α), k + 1 ≤ l.length →
      (l.take (k + 1)).getLastD d = (l.drop k).headD d := by
  intro k
  induction k with
  | zero =>
    intro l d h
    rcases l with _ | ⟨a, t⟩
    · simp at h
    · rw [List.take_succ_cons, List.take_zero]
      rfl
  | succ j ih =>
    intro l d h
    rcases l with _ | ⟨a, t⟩
    · simp at h
    · rcases t with _ | ⟨b, u⟩
      · simp at h
      · rw [List.take_succ_cons, List.drop_succ_cons, List.getLastD_cons]
        have hlen : j + 1 ≤ (b :: u).length := by
          simp only [List.length_cons] at h ⊢
          omega
        have hirr : ((b :: u).take (j + 1)).getLastD a =
            ((b :: u).take (j + 1)).getLastD d := by
          rw [List.take_succ_cons]
          exact getLastD_irrel b _ a d
        rw [hirr]
        exact ih (b :: u) d hlen

/-- Running the wrapped callback over chain rows equals the instrumented
chain fold, whatever the starting depth. -/
theorem foldRows_untilInner {σ : Type} (cb : CB σ) :
    ∀ (l : List Nat) (d e0 : Nat) (s : σ),
      foldRows (untilInner cb) (e0, s) (chainRowsFrom l d) = chainFoldE cb e0 s l := by
  intro l
  induction l with
  | nil => intro d e0 s; rfl
  | cons a t ih =>
    intro d e0 s
    rcases t with _ | ⟨b, rest⟩
    · rfl
    · rw [chainRowsFrom]
      rw [foldRows]
      rcases hcb : cb s b a with ⟨s', e⟩
      rcases e with _ | er
      · simp only [untilInner, hcb]
        rw [chainFoldE]
        rw [hcb]
        exact ih (d + 1) b s'
      · simp only [untilInner, hcb]
        rw [chainFoldE]
        rw [hcb]

/-- The instrumented fold projects onto the plain fold. -/
theorem chainFoldE_proj {σ : Type} (cb : CB σ) :
    ∀ (l : List Nat) (e0 : Nat) (s : σ),
      (chainFoldE cb e0 s l).1.2 = (chainFold cb s l).1 ∧
      (chainFoldE cb e0 s l).2 = (chainFold cb s l).2 := by
  intro l
  induction l with
  | nil => intro e0 s; exact ⟨rfl, rfl⟩
  | cons a t ih =>
    intro e0 s
    rcases t with _ | ⟨b, rest⟩
    · exact ⟨rfl, rfl⟩
    · rw [chainFoldE, chainFold]
      rcases hcb : cb s b a with ⟨s', e⟩
      rcases e with _ | er
      · exact ih b s'
      · exact ⟨rfl, rfl⟩

/-- On a complete walk the instrumented fold records the last chain
element as the earliest ancestor. -/
theorem chainFoldE_earliest {σ : Type} (cb : CB σ) :
    ∀ (l : List Nat) (e0 : Nat) (s : σ), (chainFold cb s l).2 = none →
      (chainFoldE cb e0 s l).1.1 =
        (match l with
          | _ :: b :: rest => (b :: rest).getLastD 0
          | _ => e0) := by
  intro l
  induction l with
  | nil => intro e0 s _; rfl
  | cons a t ih =>
    intro e0 s hok
    rcases t with _ | ⟨b, rest⟩
    · rfl
    · rw [chainFoldE]
      rw [chainFold] at hok
      rcases hcb : cb s b a with ⟨s', e⟩
      rcases e with _ | er
      · rw [hcb] at hok
        have hrec := ih b s' hok
        show (chainFoldE cb b s' (b :: rest)).1.1 = _
        rw [hrec]
        rcases rest with _ | ⟨c, r'⟩
        · rfl
        · simp only
          rw [show ((b :: c :: r').getLastD 0) = (c :: r').getLastD b from
            List.getLastD_cons 0 b (c :: r')]
          exact getLastD_irrel c r' 0 b
      · rw [hcb] at hok
        exact Option.noConfusion hok

/-- The chain fold splits at any cut point: run the prefix, then continue
from the overlap element. -/
theorem chainFold_take_drop {σ : Type} (cb : CB σ) :
    ∀ (k : Nat) (l : List Nat) (s : σ),
      chainFold cb s l =
        (match chainFold cb s (l.take (k + 1)) with
          | (s', some e) => (s', some e)
          | (s', none) => chainFold cb s' (l.drop k)) := by
  intro k
  induction k with
  | zero =>
    intro l s
    rcases l with _ | ⟨a, t⟩
    · rfl
    · rcases t with _ | ⟨b, rest⟩
      · rfl
      · rfl
  | succ j ih =>
    intro l s
    rcases l with _ | ⟨a, t⟩
    · rfl
    · rcases t with _ | ⟨b, rest⟩
      · simp only [List.drop_succ_cons, List.drop_nil]
        rfl
      · rw [List.take_succ_cons, List.drop_succ_cons]
        rw [chainFold]
        have htk : (b :: rest).take (j + 1) = b :: rest.take j := List.take_succ_cons
        rcases hcb : cb s b a with ⟨s', e⟩
        rcases e with _ | er
        · have hcf : chainFold cb s (a :: (b :: rest).take (j + 1)) =
              chainFold cb s' ((b :: rest).take (j + 1)) := by
            rw [htk, chainFold, hcb]
          rw [hcf]
          exact ih (b :: rest) s'
        · have hcf : chainFold cb s (a :: (b :: rest).take (j + 1)) = (s', some er) := by
            rw [htk, chainFold, hcb]
          rw [hcf]

/-- Chains survive dropping a prefix. -/
theorem isCochain_drop (edges : List (Nat × Nat)) :
    ∀ (k : Nat) (l : List Nat), isCochain edges l → isCochain edges (l.drop k) := by
  intro k
  induction k with
  | zero => intro l h; exact h
  | succ j ih =>
    intro l h
    rcases l with _ | ⟨a, t⟩
    · exact trivial
    · rw [List.drop_succ_cons]
      rcases t with _ | ⟨b, r⟩
      · rw [List.drop_nil]
        exact trivial
      · exact ih (b :: r) h.2

/-- The last element of a chain is a root. -/
theorem isCochain_last (edges : List (Nat × Nat)) :
    ∀ (rest : List Nat) (x : Nat), isCochain edges (x :: rest) →
      ∀ e ∈ edges, e.2 ≠ rest.getLastD x := by
  intro rest
  induction rest with
  | nil => intro x h e he; exact h e he
  | cons y r' ih =>
    intro x h e he
    rw [List.getLastD_cons]
    exact ih y h.2 e he

/-- Result adjustment of the batched walk: a break from the callback is a
normal completion. -/
def breakToOk {σ : Type} (p : σ × Option Err) : σ × Option Err :=
  match p with
  | (s, some e) => if e = .errBreak then (s, none) else (s, some e)
  | (s, none) => (s, none)

/-- The batched walk to the root along a chain runs the callback over
the chain edges exactly once, in order: it equals the plain chain fold
with a break treated as a normal completion, given enough fuel for the
batching. -/
theorem untilRootLoop_chain {σ : Type} (edges : List (Nat × Nat))
    (hu : uniqueChild edges) (hnd : edges.Nodup) (cb : CB σ) :
    ∀ (fuel : Nat) (x : Nat) (rest : List Nat) (s : σ),
      isCochain edges (x :: rest) → (x :: rest).Nodup →
      (x :: rest).length < fuel →
      untilRootLoop edges cb fuel x s = breakToOk (chainFold cb s (x :: rest)) := by
  have h1000 : MaxSearchDepth = 1000 := rfl
  intro fuel
  induction fuel with
  | zero =>
    intro x rest s _ _ hlen
    omega
  | succ f ih =>
    intro x rest s hc hln hlen
    rw [untilRootLoop]
    rw [commitAncestryRows_chain edges hu hnd x rest MaxSearchDepth hc hln (by decide)]
    rw [List.take_succ_cons]
    rw [foldRows_untilInner cb _ 1 x s]
    rcases rest with _ | ⟨y, rest'⟩
    · simp [chainFoldE, chainFold, breakToOk]
    · have hT : (y :: rest').take MaxSearchDepth = y :: rest'.take (MaxSearchDepth - 1) :=
        List.take_cons (by decide)
      rw [hT]
      have htfull : (x :: y :: rest').take (MaxSearchDepth + 1) =
          x :: y :: rest'.take (MaxSearchDepth - 1) := by
        rw [List.take_succ_cons, hT]
      have hcomp := chainFold_take_drop cb MaxSearchDepth (x :: y :: rest') s
      rw [htfull] at hcomp
      rcases hcf : chainFold cb s (x :: y :: rest'.take (MaxSearchDepth - 1)) with ⟨s', e⟩
      rw [hcf] at hcomp
      have hproj := chainFoldE_proj cb (x :: y :: rest'.take (MaxSearchDepth - 1)) x s
      rcases hE : chainFoldE cb x s (x :: y :: rest'.take (MaxSearchDepth - 1)) with ⟨⟨e1, s1⟩, eo⟩
      rw [hE, hcf] at hproj
      simp only at hproj
      rcases hproj with ⟨hs1, heo⟩
      subst hs1
      subst heo
      rcases eo with _ | er
      · -- the batch completed: the walk either stops at the root or recurses
        show (if e1 = x then (s1, none) else untilRootLoop edges cb f e1 s1) =
          breakToOk (chainFold cb s (x :: y :: rest'))
        have he1v := chainFoldE_earliest cb (x :: y :: rest'.take (MaxSearchDepth - 1)) x s
          (by rw [hcf])
        rw [hE] at he1v
        simp only at he1v
        have he1mem : e1 ∈ y :: rest'.take (MaxSearchDepth - 1) := by
          rw [he1v]
          exact getLastD_mem _ _ _
        have he1full : e1 ∈ y :: rest' := by
          rcases List.mem_cons.mp he1mem with h | h
          · rw [h]; exact List.mem_cons_self _ _
          · exact List.mem_cons_of_mem _ (List.mem_of_mem_take h)
        have he1x : ¬ e1 = x := by
          intro h
          rw [h] at he1full
          exact (List.nodup_cons.mp hln).1 he1full
        rw [if_neg he1x]
        by_cases hsz : (x :: y :: rest').length ≤ MaxSearchDepth + 1
        · -- the chain fits in one batch: the second batch starts at the root
          have hrt : rest'.take (MaxSearchDepth - 1) = rest' := by
            apply List.take_of_length_le
            simp only [List.length_cons] at hsz
            omega
          rw [hrt] at he1v hcf
          have hroot : ∀ e ∈ edges, e.2 ≠ e1 := by
            intro e he
            rw [he1v]
            have hmm := isCochain_last edges (y :: rest') x hc e he
            rw [List.getLastD_cons] at hmm
            rw [show ((rest').getLastD y : Nat) = (y :: rest').getLastD 0 from ?_] at hmm
            · exact hmm
            · rw [List.getLastD_cons]
          have hstep := ih e1 [] s1 hroot (by simp) (by
            simp only [List.length_cons, List.length_nil] at hlen ⊢
            omega)
          rw [hstep]
          have hdl : ((x :: y :: rest').drop MaxSearchDepth).length ≤ 1 := by
            rw [List.length_drop]
            simp only [List.length_cons] at hsz ⊢
            omega
          have hfull : chainFold cb s (x :: y :: rest') = (s1, none) := by
            rw [hcomp]
            rcases hdrop : (x :: y :: rest').drop MaxSearchDepth with _ | ⟨z, tl⟩
            · rfl
            · rw [hdrop] at hdl
              rcases tl with _ | ⟨w, tl'⟩
              · rfl
              · simp at hdl
          rw [hfull]
          rfl
        · -- the chain overflows the batch: recurse on the dropped suffix
          have hlendrop : MaxSearchDepth + 1 ≤ (x :: y :: rest').length := by
            simp only [List.length_cons] at hsz ⊢
            omega
          have he1d : e1 = ((x :: y :: rest').drop MaxSearchDepth).headD 0 := by
            rw [← take_getLastD_eq_drop_headD MaxSearchDepth (x :: y :: rest') 0 hlendrop]
            rw [htfull]
            rw [List.getLastD_cons]
            rw [he1v]
            exact getLastD_irrel _ _ 0 x
          rcases hdrop : (x :: y :: rest').drop MaxSearchDepth with _ | ⟨z, tl⟩
          · have hzz := congrArg List.length hdrop
            rw [List.length_drop, h1000] at hzz
            rw [h1000] at hlendrop
            simp only [List.length_cons, List.length_nil] at hzz hlendrop
            omega
          · rw [hdrop] at he1d
            simp only [List.headD_cons] at he1d
            have hlentl := congrArg List.length hdrop
            rw [List.length_drop, h1000] at hlentl
            simp only [List.length_cons] at hlentl
            have hcz : isCochain edges (z :: tl) := by
              have := isCochain_drop edges MaxSearchDepth (x :: y :: rest') hc
              rw [hdrop] at this
              exact this
            have hnz : (z :: tl).Nodup := by
              have := List.Nodup.sublist (List.drop_sublist MaxSearchDepth (x :: y :: rest')) hln
              rw [hdrop] at this
              exact this
            have hlz : (z :: tl).length < f := by
              simp only [List.length_cons] at hlen hlentl ⊢
              omega
            have hstep := ih z tl s1 hcz hnz hlz
            rw [he1d, hstep]
            rw [hcomp, hdrop]
      · -- the batch stopped on a callback error: the walk stops with it
        show (if er = Err.errBreak then (s1, none) else (s1, some er)) =
          breakToOk (chainFold cb s (x :: y :: rest'))
        rw [hcomp]
        rfl

/-- The counting callback of the ancestor picker, folded along a chain:
it breaks at the requested offset holding that ancestor, or completes at
the root holding the traversed count. -/
theorem chainFold_count (off : Nat) :
    ∀ (rest : List Nat) (x j : Nat), j ≤ off →
      chainFold (fun (st : Nat × Nat) p _ =>
          if st.1 = off then (st, some Err.errBreak) else ((st.1 + 1, p), none))
        (j, x) (x :: rest) =
        (if off - j < rest.length then
          ((off, (x :: rest).getD (off - j) 0), some Err.errBreak)
         else ((j + rest.length, (x :: rest).getLastD 0), none)) := by
  intro rest
  induction rest with
  | nil =>
    intro x j hj
    simp [chainFold, List.getD]
  | cons y rest' ih =>
    intro x j hj
    by_cases hjo : j = off
    · subst hjo
      have hcond : j - j < (y :: rest').length := by
        simp only [List.length_cons, Nat.sub_self]
        omega
      rw [if_pos hcond]
      simp [chainFold, Nat.sub_self, List.getD]
    · have hj' : j + 1 ≤ off := by omega
      simp only [chainFold, if_neg hjo]
      rw [ih y (j + 1) hj']
      by_cases hlt : off - (j + 1) < rest'.length
      · rw [if_pos hlt, if_pos (by simp only [List.length_cons]; omega)]
        have hix : off - j = (off - (j + 1)) + 1 := by omega
        rw [hix, List.getD_cons_succ]
      · rw [if_neg hlt, if_neg (by simp only [List.length_cons]; omega)]
        have h1 : j + 1 + rest'.length = j + (y :: rest').length := by
          simp only [List.length_cons]
          omega
        have h2 : ((y :: rest').getLastD 0 : Nat) = (x :: y :: rest').getLastD 0 := by
          rw [show ((x :: y :: rest').getLastD 0 : Nat) = (y :: rest').getLastD x from
            List.getLastD_cons 0 x (y :: rest')]
          exact getLastD_irrel y rest' 0 x
        rw [h1, h2]

/-- The sliding-window callback of the branch-root picker, folded along a
chain: it completes with the window fold of the parents and the total
depth. -/
theorem chainFold_window (off : Nat) :
    ∀ (rest : List Nat) (x : Nat) (p0 : List Nat) (d0 : Nat),
      chainFold (fun (st : List Nat × Nat) p _ =>
          let path := st.1 ++ [p]
          let path := if path.length > off + 1 then path.tail else path
          ((path, st.2 + 1), none)) (p0, d0) (x :: rest) =
        ((rest.foldl (fun pa q =>
            if (pa ++ [q]).length > off + 1 then (pa ++ [q]).tail else pa ++ [q]) p0,
          d0 + rest.length), none) := by
  intro rest
  induction rest with
  | nil =>
    intro x p0 d0
    simp [chainFold]
  | cons y rest' ih =>
    intro x p0 d0
    simp only [chainFold]
    rw [ih y _ (d0 + 1)]
    simp only [List.foldl_cons, List.length_cons]
    congr 1
    congr 1
    omega

/-- The window fold keeps exactly the last window-size elements of the
whole visited sequence. -/
theorem foldl_slide_window (off : Nat) :
    ∀ (xs p0 : List Nat), p0 ≠ [] → p0.length ≤ off + 1 →
      xs.foldl (fun pa q =>
          if (pa ++ [q]).length > off + 1 then (pa ++ [q]).tail else pa ++ [q]) p0 =
        (p0 ++ xs).drop ((p0 ++ xs).length - (off + 1)) := by
  intro xs
  induction xs with
  | nil =>
    intro p0 hne hlen
    simp only [List.foldl_nil, List.append_nil]
    rw [show p0.length - (off + 1) = 0 from by omega, List.drop_zero]
  | cons q xs' ih =>
    intro p0 hne hlen
    simp only [List.foldl_cons]
    by_cases hgt : (p0 ++ [q]).length > off + 1
    · rw [if_pos hgt]
      rcases p0 with _ | ⟨h, p0''⟩
      · exact absurd rfl hne
      · have htl : ((h :: p0'') ++ [q]).tail = p0'' ++ [q] := rfl
        rw [htl]
        have hlen' : (p0'' ++ [q]).length ≤ off + 1 := by
          simp only [List.length_append, List.length_cons, List.length_nil] at hgt hlen ⊢
          omega
        have hne' : p0'' ++ [q] ≠ [] := by simp
        rw [ih _ hne' hlen']
        have hL : ((h :: p0'') ++ q :: xs').length - (off + 1) =
            ((p0'' ++ [q] ++ xs').length - (off + 1)) + 1 := by
          simp only [List.length_append, List.length_cons, List.length_nil] at hgt ⊢
          omega
        rw [hL]
        have hsp : (h :: p0'') ++ q :: xs' = h :: (p0'' ++ [q] ++ xs') := by simp
        rw [hsp, List.drop_succ_cons]
    · rw [if_neg hgt]
      have hlen' : (p0 ++ [q]).length ≤ off + 1 := Nat.le_of_not_lt hgt
      rw [ih _ (by simp) hlen']
      have hsp : p0 ++ [q] ++ xs' = p0 ++ q :: xs' := by simp
      rw [hsp]

/-- A break is absorbed into a normal completion. -/
theorem breakToOk_break {σ : Type} (s : σ) :
    breakToOk (s, some Err.errBreak) = (s, none) := by
  simp [breakToOk]

/-- A completion without error passes through unchanged. -/
theorem breakToOk_none {σ : Type} (s : σ) :
    breakToOk (s, none) = (s, none) := rfl

/-- The last element of a nonempty list is its entry at the last
position. -/
theorem getLastD_eq_getD {α : Type} (a : α) (l : List α) (d : α) :
    (a :: l).getLastD d = (a :: l).getD l.length d := by
  induction l generalizing a with
  | nil => rfl
  | cons b t ih =>
    rw [List.getLastD_cons, getLastD_irrel b t a d, ih b]
    rfl

/-- C4: for a resolvable start picker X whose parent walk is the chain
X.id :: rest, the ancestor picker at offset zero returns X unchanged; at
a positive offset within the chain it fetches the commit exactly that
many steps above X; and past the root it fails with the invalid-offset
error reporting the traversable depth. -/
theorem pickCommitAncestorOf_spec (db : DB) (fuel : Nat) (p : CommitPicker)
    (off : Nat) (X : Commit) (rest : List Nat)
    (hu : uniqueChild db.ancestry) (hnd : db.ancestry.Nodup)
    (hstart : pickCommitAux db fuel p = .ok X)
    (hchain : isCochain db.ancestry (X.id :: rest))
    (hnodup : (X.id :: rest).Nodup)
    (hfuel : (X.id :: rest).length < fuel) :
    (off = 0 → pickCommitAux db fuel (.ancestorOf p off) = .ok X) ∧
    (0 < off → off ≤ rest.length →
      pickCommitAux db fuel (.ancestorOf p off) =
        (GetCommitInfo db ((X.id :: rest).getD off 0)).map
          (fun info => ⟨(X.id :: rest).getD off 0, info, ⟨0, [], [], []⟩, 0⟩)) ∧
    (rest.length < off →
      pickCommitAux db fuel (.ancestorOf p off) =
        .error (.invalidAncestorOffset (commitKeyOpt X.info.commit) off rest.length)) := by
  have hwalk := untilRootLoop_chain db.ancestry hu hnd
    (fun (st : Nat × Nat) p _ =>
      if st.1 = off then (st, some .errBreak) else ((st.1 + 1, p), none))
    fuel X.id rest (0, X.id) hchain hnodup hfuel
  have hcount := chainFold_count off rest X.id 0 (Nat.zero_le off)
  refine ⟨?_, ?_, ?_⟩
  · intro h0
    simp only [pickCommitAux, hstart]
    rw [if_pos h0]
  · intro hpos hle
    simp only [pickCommitAux, hstart]
    rw [if_neg (by omega)]
    rw [hwalk, hcount]
    by_cases hlt : off - 0 < rest.length
    · rw [if_pos hlt, breakToOk_break]
      simp only [Nat.sub_zero]
      rw [if_neg (by omega)]
      cases hGC : GetCommitInfo db ((X.id :: rest).getD off 0) with
      | error e => simp [Except.map]
      | ok info => simp [Except.map]
    · rw [if_neg hlt, breakToOk_none]
      simp only [Nat.zero_add]
      rw [if_neg (by omega)]
      have hoe : off = rest.length := by omega
      rw [getLastD_eq_getD, show rest.length = off from hoe.symm]
      cases hGC : GetCommitInfo db ((X.id :: rest).getD off 0) with
      | error e => simp [Except.map]
      | ok info => simp [Except.map]
  · intro hgt
    simp only [pickCommitAux, hstart]
    rw [if_neg (by omega)]
    rw [hwalk, hcount]
    rw [if_neg (by omega), breakToOk_none]
    simp only [Nat.zero_add]
    rw [if_pos (by omega)]

/-- The commit the global-id picker resolves at the top of the chain. -/
def cAncW : Commit :=
  (pickCommitAux dbChain3 10 (.globalId 1 ("c3"))).toOption.getD defaultCommit

/-- C4 witness: on the three-commit chain, the ancestor picker from the
head returns the head at offset zero, the root commit at offset two, and
the invalid-offset error at offset three. -/
theorem pickCommitAncestorOf_spec_witness :
    pickCommitAux dbChain3 10 (.ancestorOf (.globalId 1 ("c3")) 0) = .ok cAncW ∧
    pickCommitAux dbChain3 10 (.ancestorOf (.globalId 1 ("c3")) 2) =
      (GetCommitInfo dbChain3 ((cAncW.id :: [2, 1]).getD 2 0)).map
        (fun info => ⟨(cAncW.id :: [2, 1]).getD 2 0, info, ⟨0, [], [], []⟩, 0⟩) ∧
    pickCommitAux dbChain3 10 (.ancestorOf (.globalId 1 ("c3")) 3) =
      .error (.invalidAncestorOffset (commitKeyOpt cAncW.info.commit) 3 ([2, 1] : List Nat).length) := by
  refine ⟨?_, ?_, ?_⟩
  · exact (pickCommitAncestorOf_spec dbChain3 10 (.globalId 1 ("c3")) 0 cAncW [2, 1]
      (by unfold uniqueChild; decide) (by decide) (by rfl) (by decide) (by decide) (by decide)).1 rfl
  · exact (pickCommitAncestorOf_spec dbChain3 10 (.globalId 1 ("c3")) 2 cAncW [2, 1]
      (by unfold uniqueChild; decide) (by decide) (by rfl) (by decide) (by decide) (by decide)).2.1
      (by decide) (by decide)
  · exact (pickCommitAncestorOf_spec dbChain3 10 (.globalId 1 ("c3")) 3 cAncW [2, 1]
      (by unfold uniqueChild; decide) (by decide) (by rfl) (by decide) (by decide) (by decide)).2.2
      (by decide)

/-- C3: for a branch head H whose parent walk is the chain H.id :: rest,
the branch-root picker at an offset beyond the walked depth fails with
the invalid-offset error reporting that depth; at an offset within the
depth the final sliding window is the last offset-plus-one commits
visited, it is nonempty, and the picker fetches its front entry, the
commit offset steps above the root. -/
theorem pickCommitBranchRoot_spec (db : DB) (fuel : Nat) (bp off : Nat)
    (H : Commit) (rest : List Nat)
    (hu : uniqueChild db.ancestry) (hnd : db.ancestry.Nodup)
    (hhead : pickCommitBranchHead db bp = .ok H)
    (hchain : isCochain db.ancestry (H.id :: rest))
    (hnodup : (H.id :: rest).Nodup)
    (hfuel : (H.id :: rest).length < fuel) :
    ((H.id :: rest).length < off →
      pickCommitAux db fuel (.branchRoot bp off) =
        .error (.invalidRootOffset (commitKeyOpt H.info.commit) off (H.id :: rest).length)) ∧
    (off ≤ (H.id :: rest).length →
      (H.id :: rest).drop ((H.id :: rest).length - (off + 1)) ≠ [] ∧
      pickCommitAux db fuel (.branchRoot bp off) =
        (GetCommitInfo db
            (((H.id :: rest).drop ((H.id :: rest).length - (off + 1))).headD 0)).map
          (fun info =>
            ⟨((H.id :: rest).drop ((H.id :: rest).length - (off + 1))).headD 0, info,
              ⟨0, [], [], []⟩, 0⟩)) := by
  have hwalk := untilRootLoop_chain db.ancestry hu hnd
    (fun (st : List Nat × Nat) p _ =>
      let path := st.1 ++ [p]
      let path := if path.length > off + 1 then path.tail else path
      ((path, st.2 + 1), none))
    fuel H.id rest ([H.id], 1) hchain hnodup hfuel
  have hcfw := chainFold_window off rest H.id [H.id] 1
  have hfsw := foldl_slide_window off rest [H.id] (by simp)
    (by simp only [List.length_cons, List.length_nil]; omega)
  simp only [List.singleton_append] at hfsw
  simp only [] at hwalk hcfw
  constructor
  · intro hgt
    simp only [List.length_cons] at hgt
    simp only [pickCommitAux, hhead]
    rw [hwalk, hcfw, breakToOk_none]
    simp only [List.length_cons]
    rw [if_pos (by omega)]
    rw [show 1 + rest.length = rest.length + 1 from by omega]
  · intro hle
    simp only [List.length_cons] at hle
    have hne : (H.id :: rest).drop ((H.id :: rest).length - (off + 1)) ≠ [] := by
      intro hnil
      have hln := List.drop_eq_nil_iff.mp hnil
      simp only [List.length_cons] at hln
      omega
    refine ⟨hne, ?_⟩
    simp only [pickCommitAux, hhead]
    rw [hwalk, hcfw, breakToOk_none]
    simp only [List.length_cons] at hfsw ⊢
    rw [if_neg (by omega)]
    rw [hfsw]
    cases hD : (H.id :: rest).drop (rest.length + 1 - (off + 1)) with
    | nil =>
      have hln := List.drop_eq_nil_iff.mp hD
      simp only [List.length_cons] at hln
      omega
    | cons x t =>
      simp only [List.headD_cons]
      cases hGC : GetCommitInfo db x with
      | error e => simp [Except.map]
      | ok info => simp [Except.map]

/-- The chain database with a branch whose head is the top commit. -/
def dbBr : DB :=
  { dbChain3 with
    branches := [⟨1, "master", 1, ⟨some ⟨"images", "user", some ("default")⟩, "c3", none⟩⟩] }

/-- The branch head the picker resolves. -/
def HW : Commit :=
  (pickCommitBranchHead dbBr 1).toOption.getD defaultCommit

/-- C3 witness: on the three-commit chain, the branch-root picker at
offset four fails with the invalid-offset error at depth three, and at
offset one keeps the nonempty window of the last two commits and fetches
its front entry, the commit one step above the root. -/
theorem pickCommitBranchRoot_spec_witness :
    (pickCommitAux dbBr 10 (.branchRoot 1 4) =
      .error (.invalidRootOffset (commitKeyOpt HW.info.commit) 4 (HW.id :: [2, 1]).length)) ∧
    ((HW.id :: [2, 1]).drop ((HW.id :: [2, 1]).length - 2) ≠ [] ∧
     pickCommitAux dbBr 10 (.branchRoot 1 1) =
       (GetCommitInfo dbBr
           (((HW.id :: [2, 1]).drop ((HW.id :: [2, 1]).length - 2)).headD 0)).map
         (fun info =>
           ⟨((HW.id :: [2, 1]).drop ((HW.id :: [2, 1]).length - 2)).headD 0, info,
             ⟨0, [], [], []⟩, 0⟩)) := by
  refine ⟨?_, ?_⟩
  · exact (pickCommitBranchRoot_spec dbBr 10 1 4 HW [2, 1]
      (by unfold uniqueChild; decide) (by decide) (by rfl) (by decide) (by decide)
      (by decide)).1 (by decide)
  · exact (pickCommitBranchRoot_spec dbBr 10 1 1 HW [2, 1]
      (by unfold uniqueChild; decide) (by decide) (by rfl) (by decide) (by decide)
      (by decide)).2 (by decide)

end Pfsdb
